import Mathlib

/-!
# Verification of the ASD_ADAR_Correction merge engine

Shallow embedding of `src/extended_variants_table/extended_table.py`
(class `ExtendedTable`), of the validator in
`src/resources/DBs/hg38/validation/default/instructions.py`, and of the
parallel reference-sequence lookup in
`src/extended_variants_table/2nd_run.py`.

A pandas `DataFrame` is modelled as a rectangular `Frame`: a list of
column names together with a list of rows, each row a list of cells
positionally aligned with the column list.  A cell is `Option Val`
(`none` models `NaN`).
-/

namespace ASD

/-- A scalar value stored in a table cell (string or integer). -/
inductive Val where
  | int : Int → Val
  | str : String → Val
deriving DecidableEq, Repr

/-- A cell of a data frame; `none` models pandas `NaN` / missing. -/
abbrev Cell := Option Val

/-- The cell value `1` used for presence indicators. -/
def cell1 : Cell := some (Val.int 1)

/-- The cell value `0` used for presence indicators. -/
def cell0 : Cell := some (Val.int 0)

/-- A pandas `DataFrame`: named columns and positionally aligned rows. -/
structure Frame where
  cols : List String
  rows : List (List Cell)
deriving Repr

/-- `rowGet cols row c` is the value of column `c` in `row` (the cell at
the first position whose column name is `c`), or `none` when the column
is absent — exactly the value produced by reindexing to a column set
containing `c`. -/
def rowGet : List String → List Cell → String → Cell
  | [], _, _ => none
  | _ :: _, [], _ => none
  | c :: cs, v :: vs, t => if c = t then v else rowGet cs vs t

/-- The key tuple of a row: the values of the key columns, in key order. -/
def keyOf (keyCols : List String) (cols : List String) (row : List Cell) :
    List Cell :=
  keyCols.map (rowGet cols row)

/-- All key tuples of a frame, in row order. -/
def frameKeys (keyCols : List String) (f : Frame) : List (List Cell) :=
  f.rows.map (keyOf keyCols f.cols)

/-- Replace the cell of column `c` (first occurrence) by `v`; a missing
column leaves the row unchanged. -/
def setCell : List String → List Cell → String → Cell → List Cell
  | [], vs, _, _ => vs
  | _ :: _, [], _, _ => []
  | c :: cs, v :: vs, t, nv =>
      if c = t then nv :: vs else v :: setCell cs vs t nv

/-- `df[c] = v` for a scalar `v`: overwrite the column in place when it
exists, otherwise append it on the right with `v` in every row. -/
def Frame.setCol (f : Frame) (c : String) (v : Cell) : Frame :=
  if f.cols.contains c then
    ⟨f.cols, f.rows.map (fun r => setCell f.cols r c v)⟩
  else
    ⟨f.cols ++ [c], f.rows.map (fun r => r ++ [v])⟩

/-- `df.reindex(columns=newCols)`: for each row keep the values of the
columns that already exist and fill the others with `NaN`. -/
def Frame.reindex (f : Frame) (newCols : List String) : Frame :=
  ⟨newCols, f.rows.map (fun r => newCols.map (rowGet f.cols r))⟩

/-- Python `dict.fromkeys` de-duplication: keep the first occurrence of
each name, in order of first appearance. -/
def dedupFirst : List String → List String
  | [] => []
  | x :: xs => x :: (dedupFirst xs).filter (fun y => y ≠ x)

/-- Lexicographic code-point comparison of character lists — the string
order Python and pandas sort labels by. -/
def lexLt : List Char → List Char → Bool
  | [], [] => false
  | [], _ :: _ => true
  | _ :: _, [] => false
  | a :: as, b :: bs =>
      if a.toNat < b.toNat then true
      else if b.toNat < a.toNat then false
      else lexLt as bs

/-- Strict code-point order on strings. -/
def strLtB (a b : String) : Bool := lexLt a.data b.data

/-- Insert a string into a (sorted) list, before the first strictly
larger element: the workhorse of `sortStrs`. -/
def insertStr (s : String) : List String → List String
  | [] => [s]
  | t :: ts => if strLtB s t then s :: t :: ts else t :: insertStr s ts

/-- Ascending code-point sort of a list of strings, matching the order
`pandas.Index.union` produces for string labels. -/
def sortStrs (l : List String) : List String :=
  l.foldr insertStr []

/-- `pandas.Index.union(other, sort=None)` on the column labels: return
`self` when `other` is empty or equal to `self`, return `other` when
`self` is empty, and otherwise the lexicographically sorted union. -/
def colUnion (a b : List String) : List String :=
  if b = [] then a
  else if a = b then a
  else if a = [] then b
  else sortStrs (dedupFirst (a ++ b))

/-- `_order_with_keys_first`: the key columns lead and every other
column follows, in the order given. -/
def orderKeysFirst (keyCols : List String) (cols : List String) :
    List String :=
  keyCols ++ cols.filter (fun c => ¬ keyCols.contains c)

/-- The tag distinguishing the `Db` subclasses `VariantsDb` and
`ValidationDb` (`other` stands for any further `Db` subclass, rejected
by `register_db`). -/
inductive DbKind where
  | variants
  | validation
  | other
deriving DecidableEq, Repr

/-- A source database: name, kind tag, key schema, loaded batch, and the
`instructions["annotations"][name]["compute_function"]` mapping.  A
compute function receives the new-row batch and yields the (possibly
in-place mutated) batch together with its optional return value
(`none` models a Python function returning `None`). -/
structure Db where
  name : String
  kind : DbKind
  key_cols : List String
  df : Frame
  steps : String → Frame → Frame × Option Frame

/-- The engine state: consolidated table, key schema, registered
variant and validation databases, and the list of annotation-function
names the engine runs (`self.ann_funcs`). -/
structure ExtendedTable where
  table : Frame
  key_cols : List String
  variant_dbs : List Db
  validation_dbs : List Db
  ann_funcs : List String

/-- `register_db`: append a `VariantsDb` or `ValidationDb` to the
corresponding list; any other database type raises `ValueError`. -/
def register_db (st : ExtendedTable) (db : Db) :
    Except String ExtendedTable :=
  match db.kind with
  | DbKind.variants =>
      Except.ok { st with variant_dbs := st.variant_dbs ++ [db] }
  | DbKind.validation =>
      Except.ok { st with validation_dbs := st.validation_dbs ++ [db] }
  | DbKind.other => Except.error "Unsupported database type."

/-- `create_basic_table`: a zero-row frame whose columns are the key
columns, then one indicator column per registered variant database,
then one per registered validation database, first occurrences kept. -/
def create_basic_table (st : ExtendedTable) : Frame :=
  ⟨dedupFirst (st.key_cols ++ st.variant_dbs.map (fun d => d.name)
      ++ st.validation_dbs.map (fun d => d.name)), []⟩

/-- The table `merge_db` works on: the current table, or the basic
table when the current one is empty (`DataFrame.empty` is true when
either axis has length zero). -/
def tableInit (st : ExtendedTable) : Frame :=
  if st.table.rows = [] ∨ st.table.cols = [] then create_basic_table st
  else st.table

/-- Ensure the indicator column for `name` exists: if absent, append it
with value `0` in every row (`self.table[indicator_col] = 0`). -/
def ensureInd (f : Frame) (name : String) : Frame :=
  if f.cols.contains name then f
  else ⟨f.cols ++ [name], f.rows.map (fun r => r ++ [cell0])⟩

/-- `db.df[db.key_cols]`: the batch projected onto its key columns. -/
def projKeys (db : Db) : Frame :=
  ⟨db.key_cols, db.df.rows.map (fun r => db.key_cols.map (rowGet db.df.cols r))⟩

/-- Set the indicator column to `1` on every table row whose key tuple
is in `exKeys` (the mask update `self.table.loc[mask, indicator_col] = 1`). -/
def markExisting (keyCols : List String) (f : Frame) (name : String)
    (exKeys : List (List Cell)) : Frame :=
  ⟨f.cols, f.rows.map (fun r =>
      if exKeys.contains (keyOf keyCols f.cols r) then
        setCell f.cols r name cell1
      else r)⟩

/-- The `left_only` part of the left merge: the batch rows whose key
tuple does not appear among the table keys. -/
def newRows (keyCols : List String) (tKeys : List (List Cell))
    (p : Frame) : Frame :=
  ⟨p.cols, p.rows.filter (fun r => ¬ tKeys.contains (keyOf keyCols p.cols r))⟩

/-- One iteration of the annotation loop: `result = fn(new_df)`; when
`result is None` the (in-place mutated) batch continues, otherwise the
returned frame replaces it. -/
def applyStep (s : Frame → Frame × Option Frame) (f : Frame) : Frame :=
  match s f with
  | (mutated, none) => mutated
  | (_, some r) => r

/-- The annotation loop of `merge_db`: fold the compute functions named
by `ann_funcs`, in list order, over the accumulating new-row batch. -/
def runAnns (anns : List String) (db : Db) (f : Frame) : Frame :=
  anns.foldl (fun acc n => applyStep (db.steps n) acc) f

/-- The table with the indicator column ensured, the state `merge_db`
partitions against. -/
def mergeT1 (st : ExtendedTable) (db : Db) : Frame :=
  ensureInd (tableInit st) db.name

/-- The key tuples of the current table (`self.table[self.key_cols]`). -/
def mergeTK (st : ExtendedTable) (db : Db) : List (List Cell) :=
  frameKeys st.key_cols (mergeT1 st db)

/-- The key tuples of the incoming batch (`db.df[db.key_cols]`). -/
def mergeDbK (st : ExtendedTable) (db : Db) : List (List Cell) :=
  frameKeys st.key_cols (projKeys db)

/-- `existing_keys`: the batch keys already present in the table. -/
def mergeExK (st : ExtendedTable) (db : Db) : List (List Cell) :=
  (mergeDbK st db).filter (fun k => (mergeTK st db).contains k)

/-- The table after the mask update setting the indicator to `1` on
existing keys. -/
def mergeT2 (st : ExtendedTable) (db : Db) : Frame :=
  markExisting st.key_cols (mergeT1 st db) db.name (mergeExK st db)

/-- The new-row batch after `new_df[indicator_col] = 1`. -/
def mergeNd1 (st : ExtendedTable) (db : Db) : Frame :=
  (newRows st.key_cols (mergeTK st db) (projKeys db)).setCol db.name cell1

/-- The new-row batch after the annotation loop. -/
def mergeNd2 (st : ExtendedTable) (db : Db) : Frame :=
  runAnns st.ann_funcs db (mergeNd1 st db)

/-- The reconciled column list: ordered union with key columns first. -/
def mergeCols (st : ExtendedTable) (db : Db) : List String :=
  orderKeysFirst st.key_cols (colUnion (mergeT2 st db).cols (mergeNd2 st db).cols)

/-- The body of `merge_db` past its checks: partition the batch by key
against the table, mark existing keys in the indicator column, set the
indicator to `1` on the new rows, run the annotation loop, reconcile
the column schema (union, keys first), reindex both frames and append. -/
def merge_core (st : ExtendedTable) (db : Db) : ExtendedTable :=
  { st with
    table := ⟨mergeCols st db,
      ((mergeT2 st db).reindex (mergeCols st db)).rows
        ++ ((mergeNd2 st db).reindex (mergeCols st db)).rows⟩ }

/-- `merge_db`: reject non-`VariantsDb` sources first; a missing key
column in either frame surfaces as the pandas `KeyError`; otherwise run
`merge_core`. -/
def merge_db (st : ExtendedTable) (db : Db) : Except String ExtendedTable :=
  if db.kind ≠ DbKind.variants then
    Except.error "Only VariantsDb can be merged into the extended table."
  else if ¬ (db.key_cols.all (fun k => db.df.cols.contains k)
      ∧ st.key_cols.all (fun k => (ensureInd (tableInit st) db.name).cols.contains k)
      ∧ st.key_cols.all (fun k => db.key_cols.contains k)) then
    Except.error "KeyError"
  else Except.ok (merge_core st db)

/-- A sequence of `merge_db` calls (`merge_all_dbs` runs it over the
registered variant databases). -/
def mergeSeq (st : ExtendedTable) (dbs : List Db) :
    Except String ExtendedTable :=
  dbs.foldlM merge_db st

/-- The row-aligned boolean mask the validator derives from the left
merge of the table with the reference batch: for each table row, one
`true` per matching reference row (matches of one left row are
adjacent), or a single `false` when there is no match; truncated to the
table's row count by the index alignment of `df.loc`. -/
def maskList (keyCols : List String) (tbl : Frame) (vdf : Frame) :
    List Bool :=
  (tbl.rows.flatMap (fun r =>
      let m := (vdf.rows.filter (fun s =>
          keyOf keyCols vdf.cols s = keyOf keyCols tbl.cols r)).length
      if m = 0 then [false] else List.replicate m true)).take tbl.rows.length

/-- The `validate` function of the validation instructions: check the
key columns, create the validator's indicator column with value `0`,
left-merge on the key columns, and set the indicator to `1` where the
merge indicator is `both`. -/
def validate (db : Db) (tbl : Frame) : Except String Frame :=
  if ¬ (db.key_cols.all (fun k => tbl.cols.contains k)
      ∧ db.key_cols.all (fun k => db.df.cols.contains k)) then
    Except.error "Missing required column"
  else
    let v0 := tbl.setCol db.name cell0
    Except.ok ⟨v0.cols,
      List.zipWith (fun r b => if b then setCell v0.cols r db.name cell1 else r)
        v0.rows (maskList db.key_cols v0 db.df)⟩

/-- `validate_table`: run every registered validation database over the
consolidated table in turn. -/
def validate_table (st : ExtendedTable) : Except String ExtendedTable :=
  st.validation_dbs.foldlM
    (fun s db => (validate db s.table).map (fun t => { s with table := t })) st

/-- `"chr" + str(chrom).lstrip("chr")`: strip every leading `c`, `h` or
`r` character and prepend `chr`. -/
def normChr (s : String) : String :=
  "chr" ++ String.mk (s.data.dropWhile (fun c => c == 'c' || c == 'h' || c == 'r'))

/-- `str(cell)`-style rendering used by `astype(str)` (`NaN` prints as
`nan`). -/
def cellStr : Cell → String
  | some (Val.str s) => s
  | some (Val.int i) => toString i
  | none => "nan"

/-- `astype(int)` on a cell: an integer passes through, anything else
fails. -/
def cellInt : Cell → Option Int
  | some (Val.int i) => some i
  | _ => none

/-- One FASTA lookup (`_lookup_one`) for a row: normalise the
chromosome, convert the 1-based position to a 0-based start, and slice
a span of length `|ref|` from the reference `fa`; `none` is a failed
lookup. -/
def rowLookup (fa : String → Int → Nat → Option String) (df : Frame)
    (r : List Cell) : Option String :=
  match cellInt (rowGet df.cols r "pos") with
  | none => none
  | some p =>
      fa (normChr (cellStr (rowGet df.cols r "chr"))) (p - 1)
        (cellStr (rowGet df.cols r "ref")).length

/-- `df[c] = results` for a per-row list of values: overwrite in place
or append on the right. -/
def Frame.setColList (f : Frame) (c : String) (vs : List Cell) : Frame :=
  if f.cols.contains c then
    ⟨f.cols, List.zipWith (fun r v => setCell f.cols r c v) f.rows vs⟩
  else
    ⟨f.cols ++ [c], List.zipWith (fun r v => r ++ [v]) f.rows vs⟩

/-- `add_genome_ref_column`: validate the genome version and the
required columns, perform every per-row reference lookup, abort the
whole operation on any failure, and only on full success attach the
genome-version column. -/
def add_genome_ref_column (df : Frame)
    (fa : String → Int → Nat → Option String) (genome_version : String) :
    Except String Frame :=
  if genome_version ≠ "hg19" ∧ genome_version ≠ "hg38" then
    Except.error "Invalid genome_version"
  else if ¬ (["chr", "pos", "ref"].all (fun c => df.cols.contains c)) then
    Except.error "Missing columns"
  else
    let results := df.rows.map (rowLookup fa df)
    if results.contains none then Except.error "FASTA lookup failed"
    else Except.ok (df.setColList genome_version (results.map (Option.map Val.str)))

/-- Rectangularity: every row has exactly one cell per column. -/
def Rect (f : Frame) : Prop :=
  ∀ r ∈ f.rows, r.length = f.cols.length

/-- Shorthand for a string-valued cell, used by the concrete scenarios. -/
def sv (s : String) : Cell := some (Val.str s)

/-- The compute function of an identity annotation step: it neither
mutates nor returns a replacement batch. -/
def idStep : String → Frame → Frame × Option Frame := fun _ f => (f, none)

/-- The table of a merge result, or the empty frame on error. -/
def tableOf (e : Except String ExtendedTable) : Frame :=
  match e with
  | Except.ok s => s.table
  | Except.error _ => ⟨[], []⟩

/-- The frame of a validator result, or the empty frame on error. -/
def frameOf (e : Except String Frame) : Frame :=
  match e with
  | Except.ok f => f
  | Except.error _ => ⟨[], []⟩

/-- Concrete source `X`, contributing the single variant keyed `1`. -/
def exDbX : Db :=
  ⟨"X", DbKind.variants, ["chr"], ⟨["chr"], [[sv "1"]]⟩, idStep⟩

/-- Concrete source `Y`, contributing variants keyed `1` and `2`. -/
def exDbY : Db :=
  ⟨"Y", DbKind.variants, ["chr"], ⟨["chr"], [[sv "1"], [sv "2"]]⟩, idStep⟩

/-- Engine state with `X` and `Y` registered and an empty table. -/
def exSt0 : ExtendedTable := ⟨⟨[], []⟩, ["chr"], [exDbX, exDbY], [], []⟩

/-- A source whose batch repeats the key `1` on two rows. -/
def exDbDup : Db :=
  ⟨"X", DbKind.variants, ["chr"], ⟨["chr"], [[sv "1"], [sv "1"]]⟩, idStep⟩

/-- Engine state with only the duplicate-key source registered. -/
def exStDup : ExtendedTable := ⟨⟨[], []⟩, ["chr"], [exDbDup], [], []⟩

/-- Engine state whose table already has the non-key column `y`. -/
def exStC2 : ExtendedTable :=
  ⟨⟨["chr", "y"], [[sv "1", cell1]]⟩, ["chr"], [], [], []⟩

/-- A source named `x`, merged into `exStC2`. -/
def exDbC2 : Db :=
  ⟨"x", DbKind.variants, ["chr"], ⟨["chr"], [[sv "2"]]⟩, idStep⟩

/-- A validation source whose reference batch repeats the key `1`. -/
def exVdb : Db :=
  ⟨"V", DbKind.validation, ["chr"], ⟨["chr"], [[sv "1"], [sv "1"]]⟩, idStep⟩

/-- A two-row table validated against `exVdb`. -/
def exTbl7 : Frame := ⟨["chr"], [[sv "1"], [sv "2"]]⟩

/-- A database of a kind `register_db` does not support. -/
def exDbOther : Db := ⟨"Z", DbKind.other, ["chr"], ⟨[], []⟩, idStep⟩

/-- Engine state with source `X` already registered. -/
def exStX : ExtendedTable := ⟨⟨[], []⟩, ["chr"], [exDbX], [], []⟩

/-- A one-row frame for the reference-lookup scenario. -/
def exRow10 : List Cell := [sv "1", some (Val.int 5), sv "A"]

/-- A frame with the columns the reference lookup requires. -/
def exDf10 : Frame := ⟨["chr", "pos", "ref"], [exRow10]⟩

/-- A reference lookup that fails on every key. -/
def exFaFail : String → Int → Nat → Option String := fun _ _ _ => none

/-- The state after merging `exDbC2` into `exStC2`. -/
def exStC2' : ExtendedTable := merge_core exStC2 exDbC2

/-- The state after merging `X` into `exStX`. -/
def exStX1 : ExtendedTable := merge_core exStX exDbX

/-- The state after re-merging `X` into `exStX1`. -/
def exStX2 : ExtendedTable := merge_core exStX1 exDbX

/-- The state after merging `X` into `exSt0` (both sources registered). -/
def exStA : ExtendedTable := merge_core exSt0 exDbX

/-- The state after merging `X` then `Y` into `exSt0`. -/
def exStAB : ExtendedTable := merge_core exStA exDbY

/-- The state after merging `Y` into `exSt0` (both sources registered). -/
def exStB : ExtendedTable := merge_core exSt0 exDbY

/-- The state after merging `Y` then `X` into `exSt0`. -/
def exStBA : ExtendedTable := merge_core exStB exDbX

/-- A validation source with a duplicate-free reference batch. -/
def exVdbOk : Db :=
  ⟨"V", DbKind.validation, ["chr"], ⟨["chr"], [[sv "1"]]⟩, idStep⟩

/-- A re-keying annotation step: it replaces the new-row batch by a row
keyed `9`, the way an external annotator may re-key what it returns. -/
def exRekeyStep : String → Frame → Frame × Option Frame :=
  fun _ f => (f, some ⟨["chr", "X"], [[sv "9", cell1]]⟩)

/-- A source whose registered annotation step re-keys the batch. -/
def exDbRekey : Db :=
  ⟨"X", DbKind.variants, ["chr"], ⟨["chr"], [[sv "1"]]⟩, exRekeyStep⟩

/-- Engine state running the re-keying step on every merge. -/
def exStRekey : ExtendedTable :=
  ⟨⟨[], []⟩, ["chr"], [exDbRekey], [], ["rekey"]⟩

/-- The state after merging the re-keying source once. -/
def exStRekey1 : ExtendedTable := merge_core exStRekey exDbRekey

/-- The state after re-merging the re-keying source. -/
def exStRekey2 : ExtendedTable := merge_core exStRekey1 exDbRekey

/- ### Helper lemmas -/

theorem rowGet_not_mem (cols : List String) (r : List Cell) (c : String)
    (h : c ∉ cols) : rowGet cols r c = none := by
  induction cols generalizing r with
  | nil => cases r <;> rfl
  | cons x xs ih =>
      cases r with
      | nil => rfl
      | cons v vs =>
          have hx : ¬ x = c := fun he => h (he ▸ List.mem_cons_self x xs)
          simp only [rowGet, if_neg hx]
          exact ih vs (fun hc => h (List.mem_cons_of_mem _ hc))

theorem rowGet_map_mem (g : String → Cell) (cols : List String) (c : String)
    (h : c ∈ cols) : rowGet cols (cols.map g) c = g c := by
  induction cols with
  | nil => cases h
  | cons x xs ih =>
      by_cases hx : x = c
      · subst hx; simp [rowGet]
      · simp only [List.map_cons, rowGet, if_neg hx]
        exact ih ((List.mem_cons.mp h).resolve_left (fun he => hx he.symm))

theorem keyOf_reindex (K newCols oldCols : List String) (r : List Cell)
    (h : ∀ k ∈ K, k ∈ newCols) :
    keyOf K newCols (newCols.map (rowGet oldCols r)) = keyOf K oldCols r :=
  List.map_congr_left (fun k hk => rowGet_map_mem _ _ _ (h k hk))

theorem frameKeys_reindex (K : List String) (f : Frame) (newCols : List String)
    (h : ∀ k ∈ K, k ∈ newCols) :
    frameKeys K (f.reindex newCols) = frameKeys K f := by
  simp only [frameKeys, Frame.reindex, List.map_map]
  exact List.map_congr_left (fun r _ => keyOf_reindex K newCols f.cols r h)

theorem rect_reindex (f : Frame) (newCols : List String) :
    Rect (f.reindex newCols) := by
  intro r hr
  simp only [Frame.reindex, List.mem_map] at hr
  obtain ⟨s, _, rfl⟩ := hr
  simp [Frame.reindex]

theorem length_setCell (cols : List String) (r : List Cell) (n : String)
    (v : Cell) : (setCell cols r n v).length = r.length := by
  induction cols generalizing r with
  | nil => rfl
  | cons x xs ih =>
      cases r with
      | nil => rfl
      | cons y ys =>
          simp only [setCell]
          split
          · rfl
          · simp [ih ys]

theorem rowGet_setCell_ne (cols : List String) (r : List Cell)
    (n c : String) (v : Cell) (h : c ≠ n) :
    rowGet cols (setCell cols r n v) c = rowGet cols r c := by
  induction cols generalizing r with
  | nil => rfl
  | cons x xs ih =>
      cases r with
      | nil => rfl
      | cons y ys =>
          simp only [setCell]
          by_cases hx : x = n
          · rw [if_pos hx]
            have hxc : ¬ x = c := fun he => h (he.symm.trans hx)
            simp [rowGet, if_neg hxc]
          · rw [if_neg hx]
            by_cases hc : x = c
            · simp [rowGet, if_pos hc]
            · simp [rowGet, if_neg hc, ih ys]

theorem rowGet_setCell_self (cols : List String) (r : List Cell)
    (n : String) (v : Cell) (hn : n ∈ cols) (hlen : r.length = cols.length) :
    rowGet cols (setCell cols r n v) n = v := by
  induction cols generalizing r with
  | nil => cases hn
  | cons x xs ih =>
      cases r with
      | nil => simp at hlen
      | cons y ys =>
          simp only [setCell]
          by_cases hx : x = n
          · rw [if_pos hx]; simp [rowGet, if_pos hx]
          · rw [if_neg hx]
            simp only [rowGet, if_neg hx]
            exact ih ys ((List.mem_cons.mp hn).resolve_left (fun he => hx he.symm))
              (by simpa using hlen)

theorem setCell_of_rowGet (cols : List String) (r : List Cell) (n : String)
    (v : Cell) (h : rowGet cols r n = v) : setCell cols r n v = r := by
  induction cols generalizing r with
  | nil => rfl
  | cons x xs ih =>
      cases r with
      | nil => rfl
      | cons y ys =>
          simp only [setCell]
          by_cases hx : x = n
          · rw [if_pos hx]
            simp only [rowGet, if_pos hx] at h
            rw [h]
          · rw [if_neg hx]
            simp only [rowGet, if_neg hx] at h
            rw [ih ys h]

theorem rowGet_append_left (cols cs : List String) (r vs : List Cell)
    (c : String) (hc : c ∈ cols) (hlen : r.length = cols.length) :
    rowGet (cols ++ cs) (r ++ vs) c = rowGet cols r c := by
  induction cols generalizing r with
  | nil => cases hc
  | cons x xs ih =>
      cases r with
      | nil => simp at hlen
      | cons y ys =>
          by_cases hx : x = c
          · simp [rowGet, if_pos hx]
          · simp only [List.cons_append, rowGet, if_neg hx]
            exact ih ys ((List.mem_cons.mp hc).resolve_left (fun he => hx he.symm))
              (by simpa using hlen)

theorem rowGet_append_right (cols cs : List String) (r vs : List Cell)
    (c : String) (hc : c ∉ cols) (hlen : r.length = cols.length) :
    rowGet (cols ++ cs) (r ++ vs) c = rowGet cs vs c := by
  induction cols generalizing r with
  | nil =>
      cases r with
      | nil => rfl
      | cons y ys => simp at hlen
  | cons x xs ih =>
      cases r with
      | nil => simp at hlen
      | cons y ys =>
          have hx : ¬ x = c := fun he => hc (he ▸ List.mem_cons_self x xs)
          simp only [List.cons_append, rowGet, if_neg hx]
          exact ih ys (fun h => hc (List.mem_cons_of_mem _ h))
            (by simpa using hlen)

theorem keyOf_append (K cols cs : List String) (r vs : List Cell)
    (hsub : ∀ k ∈ K, k ∈ cols) (hlen : r.length = cols.length) :
    keyOf K (cols ++ cs) (r ++ vs) = keyOf K cols r :=
  List.map_congr_left
    (fun k hk => rowGet_append_left cols cs r vs k (hsub k hk) hlen)

theorem keyOf_setCell (K cols : List String) (r : List Cell) (n : String)
    (v : Cell) (hn : n ∉ K) :
    keyOf K cols (setCell cols r n v) = keyOf K cols r :=
  List.map_congr_left
    (fun k hk =>
      rowGet_setCell_ne cols r n k v (fun he => hn (he ▸ hk)))

theorem keyOf_self (K : List String) (p : List Cell) (hN : K.Nodup)
    (hlen : p.length = K.length) : keyOf K K p = p := by
  induction K generalizing p with
  | nil =>
      cases p with
      | nil => rfl
      | cons y ys => simp at hlen
  | cons k ks ih =>
      cases p with
      | nil => simp at hlen
      | cons x xs =>
          have hks : ∀ k' ∈ ks, rowGet (k :: ks) (x :: xs) k' = rowGet ks xs k' := by
            intro k' hk'
            have hne : ¬ k = k' := fun he => (List.nodup_cons.mp hN).1 (he ▸ hk')
            simp [rowGet, if_neg hne]
          have h1 : rowGet (k :: ks) (x :: xs) k = x := by simp [rowGet]
          have h2 : List.map (rowGet (k :: ks) (x :: xs)) ks = xs := by
            rw [List.map_congr_left hks]
            exact ih xs (List.nodup_cons.mp hN).2 (by simpa using hlen)
          show List.map (rowGet (k :: ks) (x :: xs)) (k :: ks) = x :: xs
          rw [List.map_cons, h1, h2]

theorem contains_iff {α : Type} [BEq α] [LawfulBEq α] (l : List α) (a : α) :
    l.contains a = true ↔ a ∈ l := by
  simp [List.contains, List.elem_iff]

theorem mem_dedupFirst (c : String) (l : List String) :
    c ∈ dedupFirst l ↔ c ∈ l := by
  induction l with
  | nil => simp [dedupFirst]
  | cons x xs ih =>
      by_cases hc : c = x
      · subst hc; simp [dedupFirst]
      · simp [dedupFirst, List.mem_filter, ih, hc]

theorem nodup_dedupFirst (l : List String) : (dedupFirst l).Nodup := by
  induction l with
  | nil => simp [dedupFirst]
  | cons x xs ih =>
      simp only [dedupFirst, List.nodup_cons]
      constructor
      · intro hx
        have := (List.mem_filter.mp hx).2
        simp at this
      · exact ih.filter _

theorem perm_insertStr (s : String) (l : List String) :
    (insertStr s l).Perm (s :: l) := by
  induction l with
  | nil => simp [insertStr]
  | cons t ts ih =>
      simp only [insertStr]
      split
      · exact List.Perm.refl _
      · exact (ih.cons t).trans (List.Perm.swap s t ts)

theorem perm_sortStrs (l : List String) : (sortStrs l).Perm l := by
  induction l with
  | nil => simp [sortStrs]
  | cons x xs ih =>
      exact (perm_insertStr x (sortStrs xs)).trans (ih.cons x)

theorem mem_sortStrs (c : String) (l : List String) :
    c ∈ sortStrs l ↔ c ∈ l :=
  (perm_sortStrs l).mem_iff

theorem nodup_sortStrs (l : List String) (h : l.Nodup) :
    (sortStrs l).Nodup :=
  (perm_sortStrs l).nodup_iff.mpr h

theorem mem_colUnion (c : String) (a b : List String) :
    c ∈ colUnion a b ↔ c ∈ a ∨ c ∈ b := by
  unfold colUnion
  split
  · rename_i h; subst h; simp
  · split
    · rename_i h; rw [h]; simp
    · split
      · rename_i h; subst h; simp
      · rw [mem_sortStrs, mem_dedupFirst, List.mem_append]

theorem nodup_colUnion (a b : List String) (ha : a.Nodup) (hne : a ≠ []) :
    (colUnion a b).Nodup := by
  unfold colUnion
  by_cases hb : b = []
  · rw [if_pos hb]; exact ha
  · rw [if_neg hb]
    by_cases hab : a = b
    · rw [if_pos hab]; exact ha
    · rw [if_neg hab, if_neg hne]
      exact nodup_sortStrs _ (nodup_dedupFirst _)

theorem mem_orderKeysFirst (c : String) (K l : List String) :
    c ∈ orderKeysFirst K l ↔ c ∈ K ∨ c ∈ l := by
  unfold orderKeysFirst
  rw [List.mem_append]
  constructor
  · rintro (h | h)
    · exact Or.inl h
    · exact Or.inr (List.mem_filter.mp h).1
  · rintro (h | h)
    · exact Or.inl h
    · by_cases hK : c ∈ K
      · exact Or.inl hK
      · refine Or.inr (List.mem_filter.mpr ⟨h, ?_⟩)
        simpa [contains_iff] using hK

theorem nodup_orderKeysFirst (K l : List String) (hK : K.Nodup)
    (hl : l.Nodup) : (orderKeysFirst K l).Nodup := by
  unfold orderKeysFirst
  refine List.Nodup.append hK (hl.filter _) ?_
  intro c hc hf
  have := (List.mem_filter.mp hf).2
  simp only [decide_eq_true_eq] at this
  exact this (by simpa [contains_iff] using hc)

theorem keys_sub_orderKeysFirst (K l : List String) :
    ∀ k ∈ K, k ∈ orderKeysFirst K l := by
  intro k hk
  exact (mem_orderKeysFirst k K l).mpr (Or.inl hk)

theorem map_filter_comm {α β : Type} (f : α → β) (q : β → Bool)
    (l : List α) :
    (l.filter (fun x => q (f x))).map f = (l.map f).filter q := by
  induction l with
  | nil => rfl
  | cons x xs ih =>
      simp only [List.filter_cons, List.map_cons]
      by_cases hq : q (f x)
      · simp [hq, ih]
      · simp [hq, ih]

theorem rect_tableInit (st : ExtendedTable) (hrect : Rect st.table) :
    Rect (tableInit st) := by
  unfold tableInit
  split
  · intro r hr; cases hr
  · exact hrect

theorem rect_ensureInd (f : Frame) (n : String) (h : Rect f) :
    Rect (ensureInd f n) := by
  unfold ensureInd
  split
  · exact h
  · intro r hr
    simp only [List.mem_map] at hr
    obtain ⟨s, hs, rfl⟩ := hr
    simp [h s hs]

theorem rect_projKeys (db : Db) : Rect (projKeys db) := by
  intro r hr
  simp only [projKeys, List.mem_map] at hr
  obtain ⟨s, _, rfl⟩ := hr
  simp [projKeys]

theorem rect_newRows (K : List String) (tK : List (List Cell)) (p : Frame)
    (h : Rect p) : Rect (newRows K tK p) := by
  intro r hr
  exact h r (List.mem_of_mem_filter hr)

theorem name_mem_ensureInd (f : Frame) (n : String) :
    n ∈ (ensureInd f n).cols := by
  unfold ensureInd
  split
  · rename_i h; exact (contains_iff _ _).mp h
  · simp

theorem mem_ensureInd_cols (f : Frame) (n c : String) :
    c ∈ (ensureInd f n).cols ↔ c ∈ f.cols ∨ c = n := by
  unfold ensureInd
  split
  · rename_i h
    constructor
    · exact Or.inl
    · rintro (hc | rfl)
      · exact hc
      · exact (contains_iff _ _).mp h
  · simp

theorem nodup_ensureInd_cols (f : Frame) (n : String) (h : f.cols.Nodup) :
    (ensureInd f n).cols.Nodup := by
  unfold ensureInd
  split
  · exact h
  · rename_i hn
    simp only [List.nodup_append, List.nodup_cons]
    refine ⟨h, by simp, ?_⟩
    intro c hc hcn
    simp only [List.mem_singleton] at hcn
    subst hcn
    exact hn (by simpa [contains_iff] using hc)

theorem name_mem_mergeT1 (st : ExtendedTable) (db : Db) :
    db.name ∈ (mergeT1 st db).cols :=
  name_mem_ensureInd _ _

theorem cols_mergeT2 (st : ExtendedTable) (db : Db) :
    (mergeT2 st db).cols = (mergeT1 st db).cols := rfl

theorem keys_sub_mergeCols (st : ExtendedTable) (db : Db) :
    ∀ k ∈ st.key_cols, k ∈ mergeCols st db :=
  keys_sub_orderKeysFirst _ _

theorem mem_mergeCols (st : ExtendedTable) (db : Db) (c : String) :
    c ∈ mergeCols st db ↔
      c ∈ st.key_cols ∨ c ∈ (mergeT1 st db).cols ∨ c ∈ (mergeNd2 st db).cols := by
  unfold mergeCols
  rw [mem_orderKeysFirst, mem_colUnion, cols_mergeT2]

theorem rect_merge_core (st : ExtendedTable) (db : Db) :
    Rect (merge_core st db).table := by
  intro r hr
  simp only [merge_core, List.mem_append] at hr
  rcases hr with hr | hr <;>
  · simp only [Frame.reindex, List.mem_map] at hr
    obtain ⟨s, _, rfl⟩ := hr
    simp [merge_core]

theorem frameKeys_markExisting (K : List String) (f : Frame) (n : String)
    (ex : List (List Cell)) (hn : n ∉ K) :
    frameKeys K (markExisting K f n ex) = frameKeys K f := by
  simp only [frameKeys, markExisting, List.map_map]
  refine List.map_congr_left (fun r _ => ?_)
  simp only [Function.comp]
  split
  · exact keyOf_setCell K f.cols r n cell1 hn
  · rfl

theorem frameKeys_newRows (K : List String) (tK : List (List Cell))
    (p : Frame) :
    frameKeys K (newRows K tK p)
      = (frameKeys K p).filter (fun k => ¬ tK.contains k) := by
  simp only [frameKeys, newRows]
  exact map_filter_comm (keyOf K p.cols)
    (fun k => decide (¬ tK.contains k)) p.rows

theorem setCol_not_mem (f : Frame) (n : String) (v : Cell)
    (h : n ∉ f.cols) :
    f.setCol n v = ⟨f.cols ++ [n], f.rows.map (fun r => r ++ [v])⟩ := by
  unfold Frame.setCol
  rw [if_neg (by simpa [contains_iff] using h)]

theorem frameKeys_mergeT2 (st : ExtendedTable) (db : Db)
    (hname : db.name ∉ st.key_cols) :
    frameKeys st.key_cols (mergeT2 st db) = mergeTK st db :=
  frameKeys_markExisting _ _ _ _ hname

theorem cols_mergeNd1 (st : ExtendedTable) (db : Db)
    (hname : db.name ∉ st.key_cols) (hkd : db.key_cols = st.key_cols) :
    (mergeNd1 st db).cols = st.key_cols ++ [db.name] := by
  unfold mergeNd1
  rw [setCol_not_mem]
  · simp [newRows, projKeys, hkd]
  · simpa [newRows, projKeys, hkd] using hname

theorem frameKeys_mergeNd1 (st : ExtendedTable) (db : Db)
    (hname : db.name ∉ st.key_cols) (hkd : db.key_cols = st.key_cols) :
    frameKeys st.key_cols (mergeNd1 st db)
      = (mergeDbK st db).filter (fun k => ¬ (mergeTK st db).contains k) := by
  unfold mergeNd1
  rw [setCol_not_mem _ _ _ (by simpa [newRows, projKeys, hkd] using hname)]
  have hrows : ∀ r ∈ (newRows st.key_cols (mergeTK st db) (projKeys db)).rows,
      keyOf st.key_cols ((newRows st.key_cols (mergeTK st db) (projKeys db)).cols ++ [db.name])
        (r ++ [cell1])
      = keyOf st.key_cols (newRows st.key_cols (mergeTK st db) (projKeys db)).cols r := by
    intro r hr
    refine keyOf_append _ _ _ _ _ ?_ ?_
    · intro k hk
      simp [newRows, projKeys, hkd, hk]
    · exact rect_newRows _ _ _ (rect_projKeys db) r hr
  calc frameKeys st.key_cols
        ⟨(newRows st.key_cols (mergeTK st db) (projKeys db)).cols ++ [db.name],
         (newRows st.key_cols (mergeTK st db) (projKeys db)).rows.map (fun r => r ++ [cell1])⟩
      = frameKeys st.key_cols (newRows st.key_cols (mergeTK st db) (projKeys db)) := by
        simp only [frameKeys, List.map_map]
        exact List.map_congr_left (fun r hr => hrows r hr)
    _ = (mergeDbK st db).filter (fun k => ¬ (mergeTK st db).contains k) :=
        frameKeys_newRows _ _ _

theorem frameKeys_merge_core (st : ExtendedTable) (db : Db)
    (hname : db.name ∉ st.key_cols) :
    frameKeys st.key_cols (merge_core st db).table
      = mergeTK st db ++ frameKeys st.key_cols (mergeNd2 st db) := by
  show frameKeys st.key_cols
      ⟨mergeCols st db,
        ((mergeT2 st db).reindex (mergeCols st db)).rows
          ++ ((mergeNd2 st db).reindex (mergeCols st db)).rows⟩
    = _
  have h1 : frameKeys st.key_cols
      ⟨mergeCols st db,
        ((mergeT2 st db).reindex (mergeCols st db)).rows
          ++ ((mergeNd2 st db).reindex (mergeCols st db)).rows⟩
      = frameKeys st.key_cols ((mergeT2 st db).reindex (mergeCols st db))
        ++ frameKeys st.key_cols ((mergeNd2 st db).reindex (mergeCols st db)) := by
    simp [frameKeys, Frame.reindex]
  rw [h1, frameKeys_reindex _ _ _ (keys_sub_mergeCols st db),
    frameKeys_reindex _ _ _ (keys_sub_mergeCols st db),
    frameKeys_mergeT2 st db hname]

theorem merge_char (st : ExtendedTable) (db : Db)
    (hname : db.name ∉ st.key_cols)
    (hkd : db.key_cols = st.key_cols)
    (hrect : Rect st.table)
    (hKsub : ∀ k ∈ st.key_cols, k ∈ (mergeT1 st db).cols)
    (hid : ∀ f, runAnns st.ann_funcs db f = f) :
    (∀ c, c ∈ (merge_core st db).table.cols ↔ c ∈ (mergeT1 st db).cols)
    ∧ frameKeys st.key_cols (merge_core st db).table
        = mergeTK st db
          ++ (mergeDbK st db).filter (fun k => ¬ (mergeTK st db).contains k)
    ∧ ∃ updOld updNew,
        (merge_core st db).table.rows
          = (mergeT1 st db).rows.map updOld
            ++ ((projKeys db).rows.filter (fun r =>
                ¬ (mergeTK st db).contains
                  (keyOf st.key_cols (projKeys db).cols r))).map updNew
        ∧ (∀ r ∈ (mergeT1 st db).rows, ∀ c,
            rowGet (merge_core st db).table.cols (updOld r) c
              = if c = db.name
                    ∧ keyOf st.key_cols (mergeT1 st db).cols r ∈ mergeDbK st db
                then cell1
                else rowGet (mergeT1 st db).cols r c)
        ∧ (∀ r ∈ (mergeT1 st db).rows,
            keyOf st.key_cols (merge_core st db).table.cols (updOld r)
              = keyOf st.key_cols (mergeT1 st db).cols r)
        ∧ (∀ r ∈ (projKeys db).rows, ∀ c,
            rowGet (merge_core st db).table.cols (updNew r) c
              = if c = db.name then cell1
                else if c ∈ st.key_cols then rowGet st.key_cols r c else none)
        ∧ (∀ r ∈ (projKeys db).rows,
            keyOf st.key_cols (merge_core st db).table.cols (updNew r)
              = keyOf st.key_cols st.key_cols r) := by
  have hrT1 : Rect (mergeT1 st db) :=
    rect_ensureInd _ _ (rect_tableInit st hrect)
  have hnmem : db.name ∈ (mergeT1 st db).cols := name_mem_mergeT1 st db
  have hnd2 : mergeNd2 st db = mergeNd1 st db := hid (mergeNd1 st db)
  have hcolsEq : (merge_core st db).table.cols = mergeCols st db := rfl
  have hnameC : db.name ∈ mergeCols st db :=
    (mem_mergeCols st db db.name).mpr (Or.inr (Or.inl hnmem))
  have ht1C : ∀ c ∈ (mergeT1 st db).cols, c ∈ mergeCols st db :=
    fun c hc => (mem_mergeCols st db c).mpr (Or.inr (Or.inl hc))
  have hndNotMem : db.name ∉ (newRows st.key_cols (mergeTK st db) (projKeys db)).cols := by
    simpa [newRows, projKeys, hkd] using hname
  have hnd1eq : mergeNd1 st db
      = ⟨st.key_cols ++ [db.name],
         (newRows st.key_cols (mergeTK st db) (projKeys db)).rows.map
           (fun r => r ++ [cell1])⟩ := by
    unfold mergeNd1
    rw [setCol_not_mem _ _ _ hndNotMem]
    simp [newRows, projKeys, hkd]
  refine ⟨?_, ?_, ?_⟩
  · -- column membership
    intro c
    rw [hcolsEq, mem_mergeCols, hnd2, hnd1eq]
    constructor
    · rintro (hc | hc | hc)
      · exact hKsub c hc
      · exact hc
      · rcases List.mem_append.mp hc with hc | hc
        · exact hKsub c hc
        · rw [List.mem_singleton.mp hc]; exact hnmem
    · intro hc
      exact Or.inr (Or.inl hc)
  · -- key tuples
    rw [frameKeys_merge_core st db hname, hnd2,
      frameKeys_mergeNd1 st db hname hkd]
  · -- row decomposition
    refine ⟨fun r => (mergeCols st db).map (rowGet (mergeT1 st db).cols
        (if (mergeExK st db).contains (keyOf st.key_cols (mergeT1 st db).cols r)
         then setCell (mergeT1 st db).cols r db.name cell1 else r)),
      fun r => (mergeCols st db).map
        (rowGet (st.key_cols ++ [db.name]) (r ++ [cell1])),
      ?_, ?_, ?_, ?_, ?_⟩
    · -- the rows equation
      show ((mergeT2 st db).reindex (mergeCols st db)).rows
          ++ ((mergeNd2 st db).reindex (mergeCols st db)).rows = _
      congr 1
      · show ((mergeT1 st db).rows.map (fun r =>
            if (mergeExK st db).contains (keyOf st.key_cols (mergeT1 st db).cols r)
            then setCell (mergeT1 st db).cols r db.name cell1 else r)).map
              (fun r => (mergeCols st db).map (rowGet (mergeT1 st db).cols r)) = _
        rw [List.map_map]
        rfl
      · rw [hnd2, hnd1eq]
        show ((newRows st.key_cols (mergeTK st db) (projKeys db)).rows.map
            (fun r => r ++ [cell1])).map
              (fun r => (mergeCols st db).map
                (rowGet (st.key_cols ++ [db.name]) r)) = _
        rw [List.map_map]
        rfl
    · -- the value of each updated old row
      intro r hr c
      rw [hcolsEq]
      have hkeymem : keyOf st.key_cols (mergeT1 st db).cols r ∈ mergeTK st db :=
        List.mem_map_of_mem _ hr
      by_cases hcC : c ∈ mergeCols st db
      · rw [rowGet_map_mem _ _ _ hcC]
        by_cases hcond : (mergeExK st db).contains
            (keyOf st.key_cols (mergeT1 st db).cols r)
        · rw [if_pos hcond]
          by_cases hcn : c = db.name
          · subst hcn
            rw [rowGet_setCell_self _ _ _ _ hnmem (hrT1 r hr)]
            have hdbk : keyOf st.key_cols (mergeT1 st db).cols r ∈ mergeDbK st db := by
              have := (contains_iff _ _).mp hcond
              exact (List.mem_filter.mp this).1
            rw [if_pos ⟨rfl, hdbk⟩]
          · rw [rowGet_setCell_ne _ _ _ _ _ hcn,
              if_neg (fun h => hcn h.1)]
        · rw [if_neg hcond]
          have hnot : ¬ (c = db.name
              ∧ keyOf st.key_cols (mergeT1 st db).cols r ∈ mergeDbK st db) := by
            rintro ⟨-, hkdb⟩
            exact hcond ((contains_iff _ _).mpr
              (List.mem_filter.mpr ⟨hkdb, by
                simpa using (contains_iff (mergeTK st db) _).mpr hkeymem⟩))
          rw [if_neg hnot]
      · rw [rowGet_not_mem _ _ _ hcC]
        have hcn : ¬ c = db.name := fun h => hcC (h ▸ hnameC)
        rw [if_neg (fun h => hcn h.1),
          rowGet_not_mem _ _ _ (fun h => hcC (ht1C c h))]
    · -- the key of each updated old row
      intro r hr
      rw [hcolsEq,
        keyOf_reindex _ _ _ _ (keys_sub_mergeCols st db)]
      split
      · exact keyOf_setCell _ _ _ _ _ hname
      · rfl
    · -- the value of each appended new row
      intro r hr c
      rw [hcolsEq]
      have hlenr : r.length = st.key_cols.length := by
        have := rect_projKeys db r hr
        simpa [projKeys, hkd] using this
      by_cases hcC : c ∈ mergeCols st db
      · rw [rowGet_map_mem _ _ _ hcC]
        by_cases hcn : c = db.name
        · subst hcn
          rw [rowGet_append_right _ _ _ _ _ hname hlenr]
          simp [rowGet]
        · rw [if_neg hcn]
          by_cases hcK : c ∈ st.key_cols
          · rw [rowGet_append_left _ _ _ _ _ hcK hlenr, if_pos hcK]
          · rw [if_neg hcK]
            refine rowGet_not_mem _ _ _ ?_
            intro hc
            rcases List.mem_append.mp hc with hc | hc
            · exact hcK hc
            · exact hcn (List.mem_singleton.mp hc)
      · rw [rowGet_not_mem _ _ _ hcC]
        have hcn : ¬ c = db.name := fun h => hcC (h ▸ hnameC)
        have hcK : ¬ c ∈ st.key_cols := fun h => hcC (keys_sub_mergeCols st db c h)
        rw [if_neg hcn, if_neg hcK]
    · -- the key of each appended new row
      intro r hr
      have hlenr : r.length = st.key_cols.length := by
        have := rect_projKeys db r hr
        simpa [projKeys, hkd] using this
      rw [hcolsEq, keyOf_reindex _ _ _ _ (keys_sub_mergeCols st db),
        keyOf_append _ _ _ _ _ (fun k hk => hk) hlenr]

theorem ensureInd_mem (f : Frame) (n : String) (h : n ∈ f.cols) :
    ensureInd f n = f := by
  unfold ensureInd
  rw [if_pos ((contains_iff _ _).mpr h)]

theorem tableInit_eq (st : ExtendedTable) (hr : st.table.rows ≠ [])
    (hc : st.table.cols ≠ []) : tableInit st = st.table := by
  unfold tableInit
  rw [if_neg (by
    rintro (h | h)
    · exact hr h
    · exact hc h)]

theorem merge_db_ok_elim (st : ExtendedTable) (db : Db) (st' : ExtendedTable)
    (h : merge_db st db = Except.ok st') :
    st' = merge_core st db
    ∧ db.kind = DbKind.variants
    ∧ (∀ k ∈ st.key_cols, k ∈ (mergeT1 st db).cols) := by
  unfold merge_db at h
  split at h
  · exact Except.noConfusion h
  · split at h
    · exact Except.noConfusion h
    · rename_i hkind hguard
      obtain ⟨-, hB, -⟩ := not_not.mp hguard
      refine ⟨(Except.ok.inj h).symm, not_not.mp hkind, ?_⟩
      intro k hk
      exact (contains_iff _ _).mp (List.all_eq_true.mp hB k hk)

theorem lexLt_asymm (a : List Char) : ∀ b, lexLt a b = true → lexLt b a = false := by
  induction a with
  | nil =>
      intro b h
      cases b with
      | nil => simp [lexLt] at h
      | cons c cs => rfl
  | cons x xs ih =>
      intro b h
      cases b with
      | nil => simp [lexLt] at h
      | cons y ys =>
          simp only [lexLt] at h ⊢
          by_cases h1 : x.toNat < y.toNat
          · rw [if_neg (show ¬ y.toNat < x.toNat by omega), if_pos h1]
          · by_cases h2 : y.toNat < x.toNat
            · rw [if_neg h1, if_pos h2] at h
              exact absurd h (by simp)
            · rw [if_neg h1, if_neg h2] at h
              rw [if_neg h2, if_neg h1]
              exact ih ys h

theorem lexLt_trans (a : List Char) :
    ∀ b c, lexLt a b = true → lexLt b c = true → lexLt a c = true := by
  induction a with
  | nil =>
      intro b c h1 h2
      cases b with
      | nil => simp [lexLt] at h1
      | cons y ys =>
          cases c with
          | nil => simp [lexLt] at h2
          | cons z zs => rfl
  | cons x xs ih =>
      intro b c h1 h2
      cases b with
      | nil => simp [lexLt] at h1
      | cons y ys =>
          cases c with
          | nil => simp [lexLt] at h2
          | cons z zs =>
              simp only [lexLt] at h1 h2 ⊢
              by_cases hxy : x.toNat < y.toNat
              · by_cases hyz : y.toNat < z.toNat
                · rw [if_pos (show x.toNat < z.toNat by omega)]
                · by_cases hzy : z.toNat < y.toNat
                  · rw [if_neg hyz, if_pos hzy] at h2
                    exact absurd h2 (by simp)
                  · rw [if_pos (show x.toNat < z.toNat by omega)]
              · by_cases hyx : y.toNat < x.toNat
                · rw [if_neg hxy, if_pos hyx] at h1
                  exact absurd h1 (by simp)
                · rw [if_neg hxy, if_neg hyx] at h1
                  by_cases hyz : y.toNat < z.toNat
                  · rw [if_pos (show x.toNat < z.toNat by omega)]
                  · by_cases hzy : z.toNat < y.toNat
                    · rw [if_neg hyz, if_pos hzy] at h2
                      exact absurd h2 (by simp)
                    · rw [if_neg hyz, if_neg hzy] at h2
                      rw [if_neg (show ¬ x.toNat < z.toNat by omega),
                        if_neg (show ¬ z.toNat < x.toNat by omega)]
                      exact ih ys zs h1 h2

theorem pairwise_insertStr (s : String) (l : List String)
    (h : l.Pairwise (fun a b => strLtB b a = false)) :
    (insertStr s l).Pairwise (fun a b => strLtB b a = false) := by
  induction l with
  | nil => simp [insertStr]
  | cons t ts ih =>
      rw [List.pairwise_cons] at h
      obtain ⟨ht, hts⟩ := h
      simp only [insertStr]
      by_cases hst : strLtB s t
      · rw [if_pos hst]
        refine List.pairwise_cons.mpr ⟨?_, List.pairwise_cons.mpr ⟨ht, hts⟩⟩
        intro x hx
        rcases List.mem_cons.mp hx with rfl | hx
        · exact lexLt_asymm _ _ hst
        · by_contra hxs
          have hxs' : strLtB x s = true := by
            cases hb : strLtB x s
            · exact absurd hb hxs
            · rfl
          have : strLtB x t = true := lexLt_trans _ _ _ hxs' hst
          rw [ht x hx] at this
          exact Bool.noConfusion this
      · rw [if_neg hst]
        refine List.pairwise_cons.mpr ⟨?_, ih hts⟩
        intro x hx
        rcases List.mem_cons.mp ((perm_insertStr s ts).mem_iff.mp hx) with rfl | hx
        · simpa using hst
        · exact ht x hx

theorem pairwise_sortStrs (l : List String) :
    (sortStrs l).Pairwise (fun a b => strLtB b a = false) := by
  induction l with
  | nil => simp [sortStrs]
  | cons x xs ih => exact pairwise_insertStr x (sortStrs xs) ih

theorem setCol_char (f : Frame) (n : String) (v : Cell) (hrect : Rect f) :
    ∃ w : List Cell → List Cell,
      (f.setCol n v).rows = f.rows.map w
      ∧ n ∈ (f.setCol n v).cols
      ∧ (∀ c, c ∈ (f.setCol n v).cols ↔ c ∈ f.cols ∨ c = n)
      ∧ ∀ r ∈ f.rows,
          rowGet (f.setCol n v).cols (w r) n = v
          ∧ (∀ c, c ≠ n →
              rowGet (f.setCol n v).cols (w r) c = rowGet f.cols r c)
          ∧ (w r).length = (f.setCol n v).cols.length := by
  unfold Frame.setCol
  by_cases hmem : f.cols.contains n
  · rw [if_pos hmem]
    have hn : n ∈ f.cols := (contains_iff _ _).mp hmem
    refine ⟨fun r => setCell f.cols r n v, rfl, hn, ?_, ?_⟩
    · intro c
      constructor
      · exact Or.inl
      · rintro (hc | rfl)
        · exact hc
        · exact hn
    · intro r hr
      exact ⟨rowGet_setCell_self _ _ _ _ hn (hrect r hr),
        fun c hc => rowGet_setCell_ne _ _ _ _ _ hc,
        (length_setCell _ _ _ _).trans (hrect r hr)⟩
  · rw [if_neg hmem]
    have hn : n ∉ f.cols := fun h => hmem ((contains_iff _ _).mpr h)
    refine ⟨fun r => r ++ [v], rfl, by simp, ?_, ?_⟩
    · intro c
      rw [List.mem_append, List.mem_singleton]
    · intro r hr
      refine ⟨?_, ?_, by simp [hrect r hr]⟩
      · rw [rowGet_append_right _ _ _ _ _ hn (hrect r hr)]
        simp [rowGet]
      · intro c hc
        by_cases hcf : c ∈ f.cols
        · exact rowGet_append_left _ _ _ _ _ hcf (hrect r hr)
        · rw [rowGet_not_mem _ _ _ hcf, rowGet_not_mem]
          intro hin
          rcases List.mem_append.mp hin with h | h
          · exact hcf h
          · exact hc (List.mem_singleton.mp h)

theorem filter_eq_length {α β : Type} [DecidableEq β] (l : List α)
    (f : α → β) (k : β) (hN : (l.map f).Nodup) :
    (l.filter (fun x => decide (f x = k))).length
      = if k ∈ l.map f then 1 else 0 := by
  induction l with
  | nil => simp
  | cons x xs ih =>
      rw [List.map_cons, List.nodup_cons] at hN
      obtain ⟨hx, hxs⟩ := hN
      rw [List.filter_cons]
      by_cases he : f x = k
      · rw [if_pos (by simpa using he)]
        have hk : k ∉ xs.map f := he ▸ hx
        rw [List.length_cons, ih hxs, if_neg hk,
          if_pos (show k ∈ (x :: xs).map f by
            rw [List.map_cons]
            exact List.mem_cons.mpr (Or.inl he.symm))]
      · rw [if_neg (by simpa using he)]
        rw [ih hxs]
        have : (k ∈ (x :: xs).map f) = (k ∈ xs.map f) := by
          simp only [List.map_cons, List.mem_cons]
          rw [eq_iff_iff]
          constructor
          · rintro (rfl | h)
            · exact absurd rfl he
            · exact h
          · exact Or.inr
        rw [List.map_cons]
        by_cases hk : k ∈ xs.map f
        · rw [if_pos hk, if_pos (List.mem_cons_of_mem _ hk)]
        · rw [if_neg hk, if_neg (by
            intro hin
            rcases List.mem_cons.mp hin with h | h
            · exact he h.symm
            · exact hk h)]

theorem flatMap_singletons {α β : Type} (l : List α) (g : α → List β)
    (h : α → β) (hg : ∀ x ∈ l, g x = [h x]) :
    l.flatMap g = l.map h := by
  induction l with
  | nil => rfl
  | cons x xs ih =>
      rw [List.flatMap_cons, hg x (List.mem_cons_self x xs),
        ih (fun y hy => hg y (List.mem_cons_of_mem _ hy)), List.map_cons]
      rfl

/- ### Claim theorems -/

/-- C9: calling `merge_db` with a source that is not variant-contributing
(for example a validation-only source) raises the type-kind `ValueError`
before any other step, and no successor state is produced, so the
consolidated table is left unchanged by the failed call. -/
theorem merge_db_rejects_validation (st : ExtendedTable) (db : Db)
    (h : db.kind = DbKind.validation) :
    merge_db st db
      = Except.error "Only VariantsDb can be merged into the extended table."
    ∧ ∀ st', merge_db st db ≠ Except.ok st' := by
  have he : merge_db st db
      = Except.error "Only VariantsDb can be merged into the extended table." := by
    unfold merge_db
    rw [if_pos (by rw [h]; exact fun hc => DbKind.noConfusion hc)]
  exact ⟨he, fun st' hok => by rw [he] at hok; exact Except.noConfusion hok⟩

/-- Witness for C9 at the concrete validation source `exVdb`. -/
theorem merge_db_rejects_validation_witness :
    merge_db exSt0 exVdb
      = Except.error "Only VariantsDb can be merged into the extended table."
    ∧ ∀ st', merge_db exSt0 exVdb ≠ Except.ok st' :=
  merge_db_rejects_validation exSt0 exVdb rfl

/-- C8 counterexample: registering a second source named `X` while `X`
is already registered does not raise a `DuplicateSourceError` — it
succeeds and appends the duplicate to the registration list. -/
theorem register_db_duplicate_succeeds :
    register_db exStX exDbX
      = Except.ok { exStX with variant_dbs := exStX.variant_dbs ++ [exDbX] }
    ∧ ∀ msg, register_db exStX exDbX ≠ Except.error msg := by
  constructor
  · rfl
  · intro msg h
    rw [show register_db exStX exDbX
        = Except.ok { exStX with variant_dbs := exStX.variant_dbs ++ [exDbX] }
      from rfl] at h
    exact Except.noConfusion h

/-- C8 (amended): registering a source whose name duplicates an
already-registered source does not fail — the source is appended again,
so the name occurs twice; only registering a source whose type is
neither variant-contributing nor validation-only raises `ValueError`,
leaving the registration state unchanged. -/
theorem register_db_amended (st : ExtendedTable) (dbv dbo : Db)
    (hv : dbv.kind = DbKind.variants) (ho : dbo.kind = DbKind.other) :
    register_db st dbv
      = Except.ok { st with variant_dbs := st.variant_dbs ++ [dbv] }
    ∧ register_db st dbo = Except.error "Unsupported database type." :=
  ⟨by simp [register_db, hv], by simp [register_db, ho]⟩

/-- Witness for the amended C8 at concrete sources. -/
theorem register_db_amended_witness :
    register_db exStX exDbX
      = Except.ok { exStX with variant_dbs := exStX.variant_dbs ++ [exDbX] }
    ∧ register_db exStX exDbOther
      = Except.error "Unsupported database type." :=
  register_db_amended exStX exDbX exDbOther rfl rfl

/-- C10: if any single reference lookup of `add_genome_ref_column`
fails, the whole operation raises an error, so no partial result is
committed and the genome-version column is never attached to the frame. -/
theorem add_genome_ref_aborts (df : Frame)
    (fa : String → Int → Nat → Option String) (gv : String) (r : List Cell)
    (hr : r ∈ df.rows) (hfail : rowLookup fa df r = none) :
    ∃ msg, add_genome_ref_column df fa gv = Except.error msg := by
  unfold add_genome_ref_column
  split
  · exact ⟨_, rfl⟩
  · split
    · exact ⟨_, rfl⟩
    · have hmem : (none : Option String) ∈ df.rows.map (rowLookup fa df) :=
        hfail ▸ List.mem_map_of_mem _ hr
      show ∃ msg,
        (if (df.rows.map (rowLookup fa df)).contains none
         then Except.error "FASTA lookup failed"
         else Except.ok (df.setColList gv
            ((df.rows.map (rowLookup fa df)).map (Option.map Val.str))))
          = Except.error msg
      rw [if_pos ((contains_iff _ _).mpr hmem)]
      exact ⟨_, rfl⟩

/-- Witness for C10 at a one-row frame with a failing lookup. -/
theorem add_genome_ref_aborts_witness :
    ∃ msg, add_genome_ref_column exDf10 exFaFail "hg38" = Except.error msg :=
  add_genome_ref_aborts exDf10 exFaFail "hg38" exRow10
    (List.mem_singleton.mpr rfl) rfl

/-- C6: after the indicator is set to `1` on the new-row batch,
`merge_db` runs the named annotation steps in list order over the
accumulating batch (`runAnns` folds them left to right); a step whose
compute function returns `None` passes its (in-place mutated) input on
to the next step, a step returning a frame replaces the batch entirely,
and the appended part of the merged table is built from exactly this
post-annotation batch. -/
theorem annotation_loop_semantics :
    (∀ (db : Db) (n : String) (ns : List String) (f : Frame),
        runAnns (n :: ns) db f = runAnns ns db (applyStep (db.steps n) f))
    ∧ (∀ (s : Frame → Frame × Option Frame) (f : Frame),
        (s f).2 = none → applyStep s f = (s f).1)
    ∧ (∀ (s : Frame → Frame × Option Frame) (f g : Frame),
        (s f).2 = some g → applyStep s f = g)
    ∧ ∀ (st : ExtendedTable) (db : Db),
        mergeNd2 st db
          = runAnns st.ann_funcs db
              ((newRows st.key_cols (mergeTK st db) (projKeys db)).setCol
                db.name cell1)
        ∧ (merge_core st db).table.rows
          = ((mergeT2 st db).reindex (mergeCols st db)).rows
            ++ ((mergeNd2 st db).reindex (mergeCols st db)).rows := by
  refine ⟨fun db n ns f => rfl, ?_, ?_, fun st db => ⟨rfl, rfl⟩⟩
  · intro s f h
    unfold applyStep
    rcases h2 : s f with ⟨m, o⟩
    rw [h2] at h
    simp only at h
    subst h
    rfl
  · intro s f g h
    unfold applyStep
    rcases h2 : s f with ⟨m, o⟩
    rw [h2] at h
    simp only at h
    subst h
    rfl

/-- Witness for C6: a `None`-returning step passes its input through
and a frame-returning step replaces the batch. -/
theorem annotation_loop_semantics_witness :
    applyStep (fun f => (f, none)) exTbl7 = exTbl7
    ∧ applyStep (fun _ => (exTbl7, some exDf10)) exTbl7 = exDf10 :=
  ⟨annotation_loop_semantics.2.1 (fun f => (f, none)) exTbl7 rfl,
   annotation_loop_semantics.2.2.1 (fun _ => (exTbl7, some exDf10)) exTbl7
     exDf10 rfl⟩

/-- C2 counterexample: merging source `x` (batch columns `chr, x`) into
a table with columns `chr, y` produces the column list `chr, x, y` —
the non-key columns are sorted by `Index.union`, not kept in the
first-seen order `chr, y, x` the claim requires. -/
theorem merge_cols_not_first_seen :
    (tableOf (merge_db exStC2 exDbC2)).cols = ["chr", "x", "y"]
    ∧ (["chr", "x", "y"] : List String) ≠ ["chr", "y", "x"] :=
  ⟨rfl, by decide⟩

/-- C2 (amended): after a merge the table's columns are the union of
the (indicator-ensured) pre-merge table columns and the
post-annotation new-row batch columns, with the key columns first —
but the remaining columns appear in ascending code-point order, the
order `pandas.Index.union` sorts string labels into, not in first-seen
order; only when the two column lists are identical (or one is empty)
is the existing order kept. -/
theorem merge_cols_sorted_union (st : ExtendedTable) (db : Db)
    (st' : ExtendedTable) (hok : merge_db st db = Except.ok st')
    (hne : (mergeT1 st db).cols ≠ (mergeNd2 st db).cols)
    (hta : (mergeT1 st db).cols ≠ [])
    (htb : (mergeNd2 st db).cols ≠ []) :
    st'.table.cols
      = st.key_cols
        ++ (sortStrs (dedupFirst
            ((mergeT1 st db).cols ++ (mergeNd2 st db).cols))).filter
          (fun c => ¬ st.key_cols.contains c)
    ∧ (∀ c, c ∈ st'.table.cols
        ↔ c ∈ st.key_cols ∨ c ∈ (mergeT1 st db).cols
          ∨ c ∈ (mergeNd2 st db).cols)
    ∧ (sortStrs (dedupFirst
        ((mergeT1 st db).cols ++ (mergeNd2 st db).cols))).Pairwise
        (fun a b => strLtB b a = false) := by
  obtain ⟨hst, -, -⟩ := merge_db_ok_elim st db st' hok
  subst hst
  have hcu : colUnion (mergeT1 st db).cols (mergeNd2 st db).cols
      = sortStrs (dedupFirst ((mergeT1 st db).cols ++ (mergeNd2 st db).cols)) := by
    unfold colUnion
    rw [if_neg htb, if_neg hne, if_neg hta]
  refine ⟨?_, ?_, pairwise_sortStrs _⟩
  · have h1 : (merge_core st db).table.cols
        = orderKeysFirst st.key_cols
            (colUnion (mergeT1 st db).cols (mergeNd2 st db).cols) := rfl
    rw [h1, hcu]
    rfl
  · intro c
    exact mem_mergeCols st db c

/-- Witness for the amended C2 at the concrete `exStC2` scenario. -/
theorem merge_cols_sorted_union_witness :
    exStC2'.table.cols
      = exStC2.key_cols
        ++ (sortStrs (dedupFirst
            ((mergeT1 exStC2 exDbC2).cols ++ (mergeNd2 exStC2 exDbC2).cols))).filter
          (fun c => ¬ exStC2.key_cols.contains c)
    ∧ (∀ c, c ∈ exStC2'.table.cols
        ↔ c ∈ exStC2.key_cols ∨ c ∈ (mergeT1 exStC2 exDbC2).cols
          ∨ c ∈ (mergeNd2 exStC2 exDbC2).cols)
    ∧ (sortStrs (dedupFirst
        ((mergeT1 exStC2 exDbC2).cols ++ (mergeNd2 exStC2 exDbC2).cols))).Pairwise
        (fun a b => strLtB b a = false) :=
  merge_cols_sorted_union exStC2 exDbC2 exStC2' rfl (by decide) (by decide)
    (by decide)

/-- C5 counterexample: with `X` and `Y` registered, merging `X` (key
`1`) and then `Y` (keys `1` and `2`), the appended row for key `2` —
not confirmed by `X` — carries `NaN` (`none`), not `0`, in the
indicator column `X`. -/
theorem appended_row_indicator_nan :
    rowGet (tableOf (mergeSeq exSt0 [exDbX, exDbY])).cols
        ((tableOf (mergeSeq exSt0 [exDbX, exDbY])).rows.getD 1 []) "X" = none
    ∧ (none : Cell) ≠ cell0 :=
  ⟨rfl, by decide⟩

/-- C5 (amended): every row appended by `merge_db` carries a null/NaN
value — not `0` — in each column outside the batch's own key and
indicator columns, in particular in every other registered source's
presence-indicator column (whether or not that source confirms the
key is irrelevant: the reindex of the new-row batch fills all such
columns with `NaN`). -/
theorem appended_rows_null_indicators (st : ExtendedTable) (db : Db)
    (st' : ExtendedTable)
    (hok : merge_db st db = Except.ok st')
    (hname : db.name ∉ st.key_cols)
    (hkd : db.key_cols = st.key_cols)
    (hrect : Rect st.table)
    (hid : ∀ f, runAnns st.ann_funcs db f = f)
    (c : String) (hcK : c ∉ st.key_cols) (hcn : c ≠ db.name) :
    ∀ r ∈ st'.table.rows.drop (mergeT1 st db).rows.length,
      rowGet st'.table.cols r c = none := by
  obtain ⟨hst, -, hKsub⟩ := merge_db_ok_elim st db st' hok
  subst hst
  obtain ⟨-, -, updOld, updNew, hrows, -, -, hNew, -⟩ :=
    merge_char st db hname hkd hrect hKsub hid
  intro r hr
  rw [hrows] at hr
  rw [show (mergeT1 st db).rows.length
      = ((mergeT1 st db).rows.map updOld).length from (List.length_map _ _).symm,
    List.drop_left] at hr
  obtain ⟨p, hp, rfl⟩ := List.mem_map.mp hr
  rw [hNew p (List.mem_of_mem_filter hp) c, if_neg hcn, if_neg hcK]

/-- Witness for the amended C5: the row the second merge of the
`exSt0` scenario appends for key `2` carries a null `X` indicator. -/
theorem appended_rows_null_indicators_witness :
    rowGet exStAB.table.cols [sv "2", none, cell1] "X" = none :=
  appended_rows_null_indicators exStA exDbY exStAB rfl (by decide) rfl
    (rect_merge_core exSt0 exDbX) (fun f => rfl) "X" (by decide) (by decide)
    [sv "2", none, cell1] (by decide)

/-- C4 counterexample: with a re-keying annotation step (allowed by the
source-database contract), merging the same source twice with the
unchanged one-row batch keyed `1` grows the table from one row to two —
the step re-keys the batch to `9` on every merge, so the batch row is
classified as new both times and the re-merge is not idempotent. -/
theorem remerge_rekey_grows :
    merge_db exStRekey exDbRekey = Except.ok exStRekey1
    ∧ merge_db exStRekey1 exDbRekey = Except.ok exStRekey2
    ∧ exStRekey1.table.rows.length = 1
    ∧ exStRekey2.table.rows.length = 2 :=
  ⟨rfl, rfl, by decide, by decide⟩

/-- C4 (amended): merging the same source a second time with an
unchanged batch leaves the table's row count unchanged, and every cell
value — read by column name, so in particular every presence
indicator — is unchanged, because all of the batch's rows are
classified as existing on the second merge; provided the source's
annotation steps act as the identity on the new-row batch (a step that
re-keys or drops rows keeps producing keys the table lacks, so the
re-merge appends them again). -/
theorem remerge_idempotent (st : ExtendedTable) (db : Db)
    (st1 st2 : ExtendedTable)
    (h1 : merge_db st db = Except.ok st1)
    (h2 : merge_db st1 db = Except.ok st2)
    (hname : db.name ∉ st.key_cols)
    (hkd : db.key_cols = st.key_cols)
    (hrect : Rect st.table)
    (hid : ∀ f, runAnns st.ann_funcs db f = f)
    (hne : db.df.rows ≠ []) :
    st2.table.rows.length = st1.table.rows.length
    ∧ ∀ c ∈ st1.table.cols,
        st2.table.rows.map (fun r => rowGet st2.table.cols r c)
          = st1.table.rows.map (fun r => rowGet st1.table.cols r c) := by
  obtain ⟨hs1, -, hKsub1⟩ := merge_db_ok_elim st db st1 h1
  subst hs1
  obtain ⟨hs2, -, hKsub2⟩ := merge_db_ok_elim (merge_core st db) db st2 h2
  subst hs2
  obtain ⟨hcols1, hkeys1, updOld1, updNew1, hrows1, hOldVal1, hOldKey1,
    hNewVal1, hNewKey1⟩ := merge_char st db hname hkd hrect hKsub1 hid
  have hnameC1 : db.name ∈ (merge_core st db).table.cols :=
    (hcols1 db.name).mpr (name_mem_mergeT1 st db)
  have hcolsne : (merge_core st db).table.cols ≠ [] :=
    List.ne_nil_of_mem hnameC1
  have hrowsne : (merge_core st db).table.rows ≠ [] := by
    rw [hrows1]
    intro habs
    obtain ⟨hl, hr⟩ := List.append_eq_nil.mp habs
    have ht1 : (mergeT1 st db).rows = [] := List.map_eq_nil_iff.mp hl
    have hF := List.map_eq_nil_iff.mp hr
    have hTK : mergeTK st db = [] := by
      unfold mergeTK frameKeys
      rw [ht1]
      rfl
    obtain ⟨r0, rest, hdf⟩ : ∃ r0 rest, db.df.rows = r0 :: rest := by
      cases hdb : db.df.rows with
      | nil => exact absurd hdb hne
      | cons a b => exact ⟨a, b, rfl⟩
    have hp0 : (db.key_cols.map (rowGet db.df.cols r0)) ∈ (projKeys db).rows := by
      show _ ∈ db.df.rows.map _
      rw [hdf]
      exact List.mem_map_of_mem _ (List.mem_cons_self _ _)
    have hmem : (db.key_cols.map (rowGet db.df.cols r0))
        ∈ (projKeys db).rows.filter (fun r =>
            ¬ (mergeTK st db).contains
              (keyOf st.key_cols (projKeys db).cols r)) :=
      List.mem_filter.mpr ⟨hp0, by simp [hTK]⟩
    rw [hF] at hmem
    exact absurd hmem (List.not_mem_nil _)
  have hT1eq : mergeT1 (merge_core st db) db = (merge_core st db).table := by
    unfold mergeT1
    rw [tableInit_eq _ hrowsne hcolsne]
    exact ensureInd_mem _ _ hnameC1
  have hdbsub : ∀ k ∈ mergeDbK st db, k ∈ mergeTK (merge_core st db) db := by
    intro k hk
    have hTKeq : mergeTK (merge_core st db) db
        = frameKeys st.key_cols (merge_core st db).table := by
      unfold mergeTK
      rw [hT1eq]
      rfl
    rw [hTKeq, hkeys1]
    by_cases hmem : k ∈ mergeTK st db
    · exact List.mem_append.mpr (Or.inl hmem)
    · refine List.mem_append.mpr (Or.inr (List.mem_filter.mpr ⟨hk, ?_⟩))
      simpa [contains_iff] using hmem
  have hone : ∀ r ∈ (merge_core st db).table.rows,
      keyOf st.key_cols (merge_core st db).table.cols r ∈ mergeDbK st db →
      rowGet (merge_core st db).table.cols r db.name = cell1 := by
    intro r hr hk
    rw [hrows1] at hr
    rcases List.mem_append.mp hr with hr | hr
    · obtain ⟨r0, hr0, rfl⟩ := List.mem_map.mp hr
      rw [hOldKey1 r0 hr0] at hk
      rw [hOldVal1 r0 hr0 db.name, if_pos ⟨rfl, hk⟩]
    · obtain ⟨p, hp, rfl⟩ := List.mem_map.mp hr
      rw [hNewVal1 p (List.mem_of_mem_filter hp) db.name, if_pos rfl]
  obtain ⟨hcols2, hkeys2, updOld2, updNew2, hrows2, hOldVal2, hOldKey2,
    hNewVal2, hNewKey2⟩ :=
    merge_char (merge_core st db) db hname hkd (rect_merge_core st db)
      hKsub2 hid
  have hfilter2 : (projKeys db).rows.filter (fun r =>
      ¬ (mergeTK (merge_core st db) db).contains
        (keyOf (merge_core st db).key_cols (projKeys db).cols r)) = [] := by
    refine List.filter_eq_nil_iff.mpr ?_
    intro r hr
    have hkmem : keyOf st.key_cols (projKeys db).cols r ∈ mergeDbK st db :=
      List.mem_map_of_mem _ hr
    simp only [decide_eq_true_eq, not_not]
    show (mergeTK (merge_core st db) db).contains _ = true
    exact (contains_iff _ _).mpr (hdbsub _ hkmem)
  rw [hfilter2, List.map_nil, List.append_nil, hT1eq] at hrows2
  rw [hT1eq] at hOldVal2 hOldKey2
  constructor
  · rw [hrows2, List.length_map]
  · intro c hc
    rw [hrows2, List.map_map]
    refine List.map_congr_left ?_
    intro r hr
    show rowGet (merge_core (merge_core st db) db).table.cols (updOld2 r) c
      = rowGet (merge_core st db).table.cols r c
    rw [hOldVal2 r hr c]
    split
    · rename_i hcond
      obtain ⟨hceq, hkmem⟩ := hcond
      subst hceq
      exact (hone r hr hkmem).symm
    · rfl

/-- Witness for C4: re-merging `X` into the table that already absorbed
it changes neither the row count nor any value. -/
theorem remerge_idempotent_witness :
    exStX2.table.rows.length = exStX1.table.rows.length
    ∧ ∀ c ∈ exStX1.table.cols,
        exStX2.table.rows.map (fun r => rowGet exStX2.table.cols r c)
          = exStX1.table.rows.map (fun r => rowGet exStX1.table.cols r c) :=
  remerge_idempotent exStX exDbX exStX1 exStX2 rfl rfl (by decide) rfl
    (fun r hr => absurd hr (List.not_mem_nil r)) (fun f => rfl) (by decide)

/-- C7 counterexample: validating a two-row table (keys `1`, `2`)
against a reference batch that lists the key `1` twice sets the
indicator to `1` on the key-`2` row as well — its key does not occur in
the reference batch, yet the misaligned positional mask flags it. -/
theorem validate_duplicate_misaligns :
    rowGet (frameOf (validate exVdb exTbl7)).cols
        ((frameOf (validate exVdb exTbl7)).rows.getD 1 []) "V" = cell1
    ∧ cell1 ≠ cell0
    ∧ keyOf ["chr"] exTbl7.cols (exTbl7.rows.getD 1 [])
        ∉ frameKeys ["chr"] exVdb.df :=
  ⟨rfl, by decide, by decide⟩

/-- C7 (amended): provided the validator's reference batch has at most
one row per key tuple, `validate` sets the validator's indicator
column to `1` on exactly those table rows whose key tuple occurs in
the reference batch and to `0` on all others, and changes no value in
any other column; a reference batch repeating a key makes the left
merge longer than the table, misaligning the positional mask. -/
theorem validate_char (db : Db) (tbl : Frame) (t' : Frame)
    (hok : validate db tbl = Except.ok t')
    (hN : (frameKeys db.key_cols db.df).Nodup)
    (hrect : Rect tbl)
    (hname : db.name ∉ db.key_cols) :
    (∀ c, c ∈ t'.cols ↔ c ∈ tbl.cols ∨ c = db.name)
    ∧ ∃ upd : List Cell → List Cell, t'.rows = tbl.rows.map upd
      ∧ ∀ r ∈ tbl.rows,
          (rowGet t'.cols (upd r) db.name
            = if keyOf db.key_cols tbl.cols r ∈ frameKeys db.key_cols db.df
              then cell1 else cell0)
          ∧ ∀ c, c ≠ db.name →
              rowGet t'.cols (upd r) c = rowGet tbl.cols r c := by
  unfold validate at hok
  split at hok
  · exact Except.noConfusion hok
  · have ht' : t' = ⟨(tbl.setCol db.name cell0).cols,
        List.zipWith (fun r b =>
            if b then setCell (tbl.setCol db.name cell0).cols r db.name cell1
            else r)
          (tbl.setCol db.name cell0).rows
          (maskList db.key_cols (tbl.setCol db.name cell0) db.df)⟩ :=
      (Except.ok.inj hok).symm
    subst ht'
    obtain ⟨w, hwrows, hwname, hwcols, hwvals⟩ :=
      setCol_char tbl db.name cell0 hrect
    have hkeyw : ∀ r ∈ tbl.rows,
        keyOf db.key_cols (tbl.setCol db.name cell0).cols (w r)
          = keyOf db.key_cols tbl.cols r := by
      intro r hr
      exact List.map_congr_left (fun k hk =>
        (hwvals r hr).2.1 k (fun he => hname (he ▸ hk)))
    have hmask : maskList db.key_cols (tbl.setCol db.name cell0) db.df
        = (tbl.setCol db.name cell0).rows.map (fun r =>
            decide (keyOf db.key_cols (tbl.setCol db.name cell0).cols r
              ∈ frameKeys db.key_cols db.df)) := by
      unfold maskList
      rw [flatMap_singletons _ _ (fun r =>
          decide (keyOf db.key_cols (tbl.setCol db.name cell0).cols r
            ∈ frameKeys db.key_cols db.df)) ?_]
      · rw [show (tbl.setCol db.name cell0).rows.length
            = ((tbl.setCol db.name cell0).rows.map (fun r =>
                decide (keyOf db.key_cols (tbl.setCol db.name cell0).cols r
                  ∈ frameKeys db.key_cols db.df))).length
          from (List.length_map _ _).symm, List.take_length]
      · intro r hr
        show (if (db.df.rows.filter (fun s =>
              keyOf db.key_cols db.df.cols s
                = keyOf db.key_cols (tbl.setCol db.name cell0).cols r)).length = 0
            then [false]
            else List.replicate (db.df.rows.filter (fun s =>
              keyOf db.key_cols db.df.cols s
                = keyOf db.key_cols (tbl.setCol db.name cell0).cols r)).length
              true) = _
        have hm := filter_eq_length db.df.rows (keyOf db.key_cols db.df.cols)
          (keyOf db.key_cols (tbl.setCol db.name cell0).cols r) hN
        by_cases hmem : keyOf db.key_cols (tbl.setCol db.name cell0).cols r
            ∈ frameKeys db.key_cols db.df
        · rw [show ((db.df.rows.filter (fun s =>
              keyOf db.key_cols db.df.cols s
                = keyOf db.key_cols (tbl.setCol db.name cell0).cols r)).length)
              = 1 from by rw [hm]; exact if_pos hmem]
          rw [if_neg (by decide)]
          show List.replicate 1 true
            = [decide (keyOf db.key_cols (tbl.setCol db.name cell0).cols r
                ∈ frameKeys db.key_cols db.df)]
          rw [decide_eq_true hmem]
          rfl
        · rw [show ((db.df.rows.filter (fun s =>
              keyOf db.key_cols db.df.cols s
                = keyOf db.key_cols (tbl.setCol db.name cell0).cols r)).length)
              = 0 from by rw [hm]; exact if_neg hmem]
          rw [if_pos rfl]
          show ([false] : List Bool)
            = [decide (keyOf db.key_cols (tbl.setCol db.name cell0).cols r
                ∈ frameKeys db.key_cols db.df)]
          rw [decide_eq_false hmem]
    refine ⟨hwcols, fun r =>
        (fun a => if decide (keyOf db.key_cols (tbl.setCol db.name cell0).cols a
            ∈ frameKeys db.key_cols db.df)
          then setCell (tbl.setCol db.name cell0).cols a db.name cell1
          else a) (w r), ?_, ?_⟩
    · show List.zipWith _ (tbl.setCol db.name cell0).rows
          (maskList db.key_cols (tbl.setCol db.name cell0) db.df) = _
      rw [hmask, List.zipWith_map_right, List.zipWith_same, hwrows,
        List.map_map]
      rfl
    · intro r hr
      by_cases hmem : keyOf db.key_cols (tbl.setCol db.name cell0).cols (w r)
          ∈ frameKeys db.key_cols db.df
      · constructor
        · show rowGet (tbl.setCol db.name cell0).cols
              (if decide _ then _ else _) db.name = _
          rw [decide_eq_true hmem, if_pos rfl,
            rowGet_setCell_self _ _ _ _ hwname (hwvals r hr).2.2,
            if_pos (by rw [← hkeyw r hr]; exact hmem)]
        · intro c hc
          show rowGet (tbl.setCol db.name cell0).cols
              (if decide _ then _ else _) c = _
          rw [decide_eq_true hmem, if_pos rfl,
            rowGet_setCell_ne _ _ _ _ _ hc]
          exact (hwvals r hr).2.1 c hc
      · constructor
        · show rowGet (tbl.setCol db.name cell0).cols
              (if decide _ then _ else _) db.name = _
          rw [decide_eq_false hmem, if_neg (by decide), (hwvals r hr).1,
            if_neg (by rw [← hkeyw r hr]; exact hmem)]
        · intro c hc
          show rowGet (tbl.setCol db.name cell0).cols
              (if decide _ then _ else _) c = _
          rw [decide_eq_false hmem, if_neg (by decide)]
          exact (hwvals r hr).2.1 c hc

/-- Witness for the amended C7 with a duplicate-free one-row reference
batch. -/
theorem validate_char_witness :
    (∀ c, c ∈ (frameOf (validate exVdbOk exTbl7)).cols
        ↔ c ∈ exTbl7.cols ∨ c = exVdbOk.name)
    ∧ ∃ upd : List Cell → List Cell,
        (frameOf (validate exVdbOk exTbl7)).rows = exTbl7.rows.map upd
        ∧ ∀ r ∈ exTbl7.rows,
            (rowGet (frameOf (validate exVdbOk exTbl7)).cols (upd r)
                exVdbOk.name
              = if keyOf exVdbOk.key_cols exTbl7.cols r
                    ∈ frameKeys exVdbOk.key_cols exVdbOk.df
                then cell1 else cell0)
            ∧ ∀ c, c ≠ exVdbOk.name →
                rowGet (frameOf (validate exVdbOk exTbl7)).cols (upd r) c
                  = rowGet exTbl7.cols r c :=
  validate_char exVdbOk exTbl7 (frameOf (validate exVdbOk exTbl7)) rfl
    (by decide) (by unfold Rect; decide) (by decide)

/-- C1 counterexample: one `merge_db` call on an empty table, with a
batch whose two rows share the key tuple `1`, appends both rows, so two
table rows share identical values across all key columns. -/
theorem merge_duplicate_batch_breaks_uniqueness :
    ¬ (frameKeys ["chr"] (tableOf (mergeSeq exStDup [exDbDup]))).Nodup := by
  decide

theorem rows_ensureInd_nil (f : Frame) (n : String) (h : f.rows = []) :
    (ensureInd f n).rows = [] := by
  unfold ensureInd
  split
  · exact h
  · simp [h]

theorem frameKeys_runAnns_sublist (K : List String) (anns : List String)
    (db : Db)
    (hsteps : ∀ n ∈ anns, ∀ f : Frame,
        (frameKeys K (applyStep (db.steps n) f)).Sublist (frameKeys K f)) :
    ∀ f, (frameKeys K (runAnns anns db f)).Sublist (frameKeys K f) := by
  induction anns with
  | nil => intro f; exact List.Sublist.refl _
  | cons n ns ih =>
      intro f
      have h1 := hsteps n (List.mem_cons_self n ns) f
      have h2 := ih (fun m hm => hsteps m (List.mem_cons_of_mem _ hm))
        (applyStep (db.steps n) f)
      exact h2.trans h1

theorem merge_preserves_nodup_keys (st : ExtendedTable) (db : Db)
    (st' : ExtendedTable)
    (hok : merge_db st db = Except.ok st')
    (hname : db.name ∉ st.key_cols)
    (hkd : db.key_cols = st.key_cols)
    (hrect : Rect st.table)
    (hkeysN : (frameKeys st.key_cols st.table).Nodup)
    (hbatch : (mergeDbK st db).Nodup)
    (hsteps : ∀ n ∈ st.ann_funcs, ∀ f : Frame,
        (frameKeys st.key_cols (applyStep (db.steps n) f)).Sublist
          (frameKeys st.key_cols f)) :
    (frameKeys st.key_cols st'.table).Nodup ∧ Rect st'.table := by
  obtain ⟨hst, -, hKsub⟩ := merge_db_ok_elim st db st' hok
  subst hst
  refine ⟨?_, rect_merge_core st db⟩
  rw [frameKeys_merge_core st db hname]
  have htkN : (mergeTK st db).Nodup := by
    unfold mergeTK
    by_cases h0 : st.table.rows = [] ∨ st.table.cols = []
    · have hnil : (mergeT1 st db).rows = [] := by
        unfold mergeT1
        refine rows_ensureInd_nil _ _ ?_
        unfold tableInit
        rw [if_pos h0]
        rfl
      unfold frameKeys
      rw [hnil]
      exact List.nodup_nil
    · push_neg at h0
      obtain ⟨h0r, h0c⟩ := h0
      have ht0 : tableInit st = st.table := tableInit_eq st h0r h0c
      have hKsub0 : ∀ k ∈ st.key_cols, k ∈ st.table.cols := by
        intro k hk
        have hmem := hKsub k hk
        unfold mergeT1 at hmem
        rw [ht0] at hmem
        rcases (mem_ensureInd_cols st.table db.name k).mp hmem with h | h
        · exact h
        · exact absurd (h ▸ hk) hname
      have hpres : frameKeys st.key_cols (mergeT1 st db)
          = frameKeys st.key_cols st.table := by
        unfold mergeT1
        rw [ht0]
        unfold ensureInd
        split
        · rfl
        · unfold frameKeys
          simp only [List.map_map]
          refine List.map_congr_left ?_
          intro r hr
          simp only [Function.comp]
          exact keyOf_append _ _ _ _ _ hKsub0 (hrect r hr)
      rw [hpres]
      exact hkeysN
  have hnd2sub : (frameKeys st.key_cols (mergeNd2 st db)).Sublist
      ((mergeDbK st db).filter (fun k => ¬ (mergeTK st db).contains k)) := by
    have h1 := frameKeys_runAnns_sublist st.key_cols st.ann_funcs db hsteps
      (mergeNd1 st db)
    rw [frameKeys_mergeNd1 st db hname hkd] at h1
    exact h1
  refine List.Nodup.append htkN
    (List.Nodup.sublist hnd2sub (hbatch.filter _)) ?_
  intro x hx1 hx2
  have hxf := hnd2sub.subset hx2
  have hpred := (List.mem_filter.mp hxf).2
  simp only [decide_eq_true_eq] at hpred
  exact hpred (by simpa [contains_iff] using hx1)

/-- C1 (amended): starting from an empty consolidated table, after any
sequence of `merge_db` calls the table has at most one row per
key-schema tuple, provided every merged batch itself has pairwise
distinct key tuples and every annotation step only drops rows or adds
columns (its output's key tuples form a sublist of its input's); a
batch repeating a key, or a re-keying annotation step, breaks the
invariant. -/
theorem mergeSeq_unique_keys (st0 : ExtendedTable) (dbs : List Db)
    (st' : ExtendedTable)
    (h0 : st0.table = ⟨[], []⟩)
    (hrun : mergeSeq st0 dbs = Except.ok st')
    (hdbs : ∀ db ∈ dbs,
        db.name ∉ st0.key_cols ∧ db.key_cols = st0.key_cols
        ∧ (frameKeys st0.key_cols (projKeys db)).Nodup
        ∧ ∀ n ∈ st0.ann_funcs, ∀ f : Frame,
            (frameKeys st0.key_cols (applyStep (db.steps n) f)).Sublist
              (frameKeys st0.key_cols f)) :
    (frameKeys st0.key_cols st'.table).Nodup := by
  have haux : ∀ (l : List Db) (st : ExtendedTable),
      (∀ db ∈ l, db ∈ dbs) →
      st.key_cols = st0.key_cols → st.ann_funcs = st0.ann_funcs →
      Rect st.table → (frameKeys st.key_cols st.table).Nodup →
      mergeSeq st l = Except.ok st' →
      (frameKeys st0.key_cols st'.table).Nodup := by
    intro l
    induction l with
    | nil =>
        intro st hsub hkc hann hrect hN hrun'
        have : st = st' := Except.ok.inj hrun'
        subst this
        rw [← hkc]
        exact hN
    | cons d ds ih =>
        intro st hsub hkc hann hrect hN hrun'
        rw [show mergeSeq st (d :: ds)
            = merge_db st d >>= (fun st1 => mergeSeq st1 ds) from rfl] at hrun'
        cases hmd : merge_db st d with
        | error e => rw [hmd] at hrun'; exact Except.noConfusion hrun'
        | ok st1 =>
            rw [hmd] at hrun'
            obtain ⟨hd1, hd2, hd3, hd4⟩ := hdbs d (hsub d (List.mem_cons_self d ds))
            obtain ⟨hN1, hrect1⟩ := merge_preserves_nodup_keys st d st1 hmd
              (hkc ▸ hd1) (hkc ▸ hd2) hrect hN
              (by
                show (frameKeys st.key_cols (projKeys d)).Nodup
                rw [hkc]
                exact hd3)
              (by
                intro n hn f
                rw [hkc]
                exact hd4 n (hann ▸ hn) f)
            have hkc1 : st1.key_cols = st0.key_cols := by
              obtain ⟨hst1, -, -⟩ := merge_db_ok_elim st d st1 hmd
              subst hst1
              exact hkc
            have hann1 : st1.ann_funcs = st0.ann_funcs := by
              obtain ⟨hst1, -, -⟩ := merge_db_ok_elim st d st1 hmd
              subst hst1
              exact hann
            exact ih st1 (fun db hdb => hsub db (List.mem_cons_of_mem _ hdb))
              hkc1 hann1 hrect1 (hkc1 ▸ (hkc ▸ hN1)) hrun'
  refine haux dbs st0 (fun db hdb => hdb) rfl rfl ?_ ?_ hrun
  · rw [h0]
    intro r hr
    exact absurd hr (List.not_mem_nil r)
  · rw [h0]
    exact List.nodup_nil

theorem two_merge_char (st0 : ExtendedTable) (X Y : Db) (stXY : ExtendedTable)
    (hrun : mergeSeq st0 [X, Y] = Except.ok stXY)
    (h0 : st0.table.rows = [])
    (hXname : X.name ∉ st0.key_cols) (hYname : Y.name ∉ st0.key_cols)
    (hXY : X.name ≠ Y.name)
    (hkdX : X.key_cols = st0.key_cols) (hkdY : Y.key_cols = st0.key_cols)
    (hX0 : X.name ∈ (create_basic_table st0).cols)
    (hY0 : Y.name ∈ (create_basic_table st0).cols)
    (hidX : ∀ f, runAnns st0.ann_funcs X f = f)
    (hidY : ∀ f, runAnns st0.ann_funcs Y f = f) :
    (∀ k, k ∈ frameKeys st0.key_cols stXY.table
        ↔ k ∈ mergeDbK st0 X ∨ k ∈ mergeDbK st0 Y)
    ∧ ∀ r ∈ stXY.table.rows,
        (rowGet stXY.table.cols r X.name
          = if keyOf st0.key_cols stXY.table.cols r ∈ mergeDbK st0 X
            then cell1 else none)
        ∧ (rowGet stXY.table.cols r Y.name
          = if keyOf st0.key_cols stXY.table.cols r ∈ mergeDbK st0 Y
            then cell1 else none) := by
  rw [show mergeSeq st0 [X, Y]
      = merge_db st0 X >>= (fun s1 => merge_db s1 Y >>= fun s2 => Except.ok s2)
    from rfl] at hrun
  cases h1 : merge_db st0 X with
  | error e => rw [h1] at hrun; exact Except.noConfusion hrun
  | ok st1 =>
  rw [h1] at hrun
  have hrun2 : merge_db st1 Y >>= (fun s2 => Except.ok s2) = Except.ok stXY :=
    hrun
  cases h2 : merge_db st1 Y with
  | error e => rw [h2] at hrun2; exact Except.noConfusion hrun2
  | ok s2 =>
  rw [h2] at hrun2
  have hs2 : s2 = stXY := Except.ok.inj hrun2
  subst hs2
  obtain ⟨hst1, -, hKsub1⟩ := merge_db_ok_elim st0 X st1 h1
  subst hst1
  obtain ⟨hst2, -, hKsub2⟩ := merge_db_ok_elim (merge_core st0 X) Y s2 h2
  subst hst2
  have hrect0 : Rect st0.table := fun r hr => absurd (h0 ▸ hr) (List.not_mem_nil r)
  have htinit0 : tableInit st0 = create_basic_table st0 := by
    unfold tableInit
    rw [if_pos (Or.inl h0)]
  have hT1X : mergeT1 st0 X = create_basic_table st0 := by
    unfold mergeT1
    rw [htinit0]
    exact ensureInd_mem _ _ hX0
  have hT1Xrows : (mergeT1 st0 X).rows = [] := by rw [hT1X]; rfl
  have hTK0 : mergeTK st0 X = [] := by
    unfold mergeTK frameKeys
    rw [hT1Xrows]
    rfl
  obtain ⟨hcols1, hkeys1, u1, v1, hrows1, hOV1, hOK1, hNV1, hNK1⟩ :=
    merge_char st0 X hXname hkdX hrect0 hKsub1 hidX
  have hfilter1 : (projKeys X).rows.filter (fun r =>
      ¬ (mergeTK st0 X).contains
        (keyOf st0.key_cols (projKeys X).cols r)) = (projKeys X).rows := by
    refine List.filter_eq_self.mpr ?_
    intro r hr
    rw [hTK0]
    simp
  have hrows1' : (merge_core st0 X).table.rows = (projKeys X).rows.map v1 := by
    rw [hrows1, hT1Xrows, hfilter1]
    simp
  have hkeys1' : frameKeys st0.key_cols (merge_core st0 X).table
      = mergeDbK st0 X := by
    rw [hkeys1, hTK0]
    simp
  have hXmem1 : X.name ∈ (merge_core st0 X).table.cols :=
    (hcols1 X.name).mpr (by rw [hT1X]; exact hX0)
  have hYmem1 : Y.name ∈ (merge_core st0 X).table.cols :=
    (hcols1 Y.name).mpr (by rw [hT1X]; exact hY0)
  have hcols1ne : (merge_core st0 X).table.cols ≠ [] :=
    List.ne_nil_of_mem hXmem1
  have hrect1 : Rect (merge_core st0 X).table := rect_merge_core st0 X
  have hT1Y : (mergeT1 (merge_core st0 X) Y).rows = (merge_core st0 X).table.rows
      ∧ ∀ r ∈ (merge_core st0 X).table.rows,
          (∀ c, rowGet (mergeT1 (merge_core st0 X) Y).cols r c
            = rowGet (merge_core st0 X).table.cols r c)
          ∧ keyOf st0.key_cols (mergeT1 (merge_core st0 X) Y).cols r
            = keyOf st0.key_cols (merge_core st0 X).table.cols r := by
    by_cases hB : (merge_core st0 X).table.rows = []
    · constructor
      · rw [hB]
        unfold mergeT1
        refine rows_ensureInd_nil _ _ ?_
        unfold tableInit
        rw [if_pos (Or.inl hB)]
        rfl
      · intro r hr
        rw [hB] at hr
        exact absurd hr (List.not_mem_nil r)
    · have hteq : mergeT1 (merge_core st0 X) Y = (merge_core st0 X).table := by
        unfold mergeT1
        rw [tableInit_eq _ hB hcols1ne]
        exact ensureInd_mem _ _ hYmem1
      rw [hteq]
      exact ⟨rfl, fun r hr => ⟨fun c => rfl, rfl⟩⟩
  obtain ⟨ht1yrows, ht1yvals⟩ := hT1Y
  have hTK1 : mergeTK (merge_core st0 X) Y = mergeDbK st0 X := by
    show List.map (keyOf st0.key_cols (mergeT1 (merge_core st0 X) Y).cols)
        (mergeT1 (merge_core st0 X) Y).rows = mergeDbK st0 X
    rw [ht1yrows,
      List.map_congr_left (fun r hr => (ht1yvals r hr).2)]
    exact hkeys1'
  obtain ⟨hcols2, hkeys2, u2, v2, hrows2, hOV2, hOK2, hNV2, hNK2⟩ :=
    merge_char (merge_core st0 X) Y
      (show Y.name ∉ (merge_core st0 X).key_cols from hYname)
      (show Y.key_cols = (merge_core st0 X).key_cols from hkdY)
      hrect1 hKsub2
      (show ∀ f, runAnns (merge_core st0 X).ann_funcs Y f = f from hidY)
  constructor
  · -- key membership
    intro k
    rw [show frameKeys st0.key_cols (merge_core (merge_core st0 X) Y).table
        = mergeTK (merge_core st0 X) Y
          ++ (mergeDbK (merge_core st0 X) Y).filter (fun k =>
              ¬ (mergeTK (merge_core st0 X) Y).contains k) from hkeys2,
      hTK1]
    constructor
    · intro hk
      rcases List.mem_append.mp hk with hk | hk
      · exact Or.inl hk
      · exact Or.inr (show k ∈ mergeDbK st0 Y from (List.mem_filter.mp hk).1)
    · rintro (hk | hk)
      · exact List.mem_append.mpr (Or.inl hk)
      · by_cases hX : k ∈ mergeDbK st0 X
        · exact List.mem_append.mpr (Or.inl hX)
        · refine List.mem_append.mpr (Or.inr (List.mem_filter.mpr
            ⟨show k ∈ mergeDbK (merge_core st0 X) Y from hk, ?_⟩))
          simpa [contains_iff] using hX
  · -- row values
    intro r hr
    rw [show (merge_core (merge_core st0 X) Y).table.rows
        = (mergeT1 (merge_core st0 X) Y).rows.map u2
          ++ ((projKeys Y).rows.filter (fun r =>
              ¬ (mergeTK (merge_core st0 X) Y).contains
                (keyOf (merge_core st0 X).key_cols (projKeys Y).cols r))).map v2
      from hrows2] at hr
    rcases List.mem_append.mp hr with hr | hr
    · -- a row inherited from the first merge
      obtain ⟨q, hq, rfl⟩ := List.mem_map.mp hr
      rw [ht1yrows] at hq
      have hq1 := hq
      rw [hrows1'] at hq1
      obtain ⟨p, hp, hqe⟩ := List.mem_map.mp hq1
      subst hqe
      have hkeyq : keyOf st0.key_cols (merge_core st0 X).table.cols (v1 p)
          = keyOf st0.key_cols st0.key_cols p := hNK1 p hp
      have hqt1 : v1 p ∈ (mergeT1 (merge_core st0 X) Y).rows := by
        rw [ht1yrows]; exact hq
      have hkeyXY : keyOf st0.key_cols
          (merge_core (merge_core st0 X) Y).table.cols (u2 (v1 p))
          = keyOf st0.key_cols st0.key_cols p := by
        have ha := hOK2 (v1 p) hqt1
        have hb := (ht1yvals (v1 p) hq).2
        exact (ha.trans hb).trans hkeyq
      have hpX : keyOf st0.key_cols st0.key_cols p ∈ mergeDbK st0 X := by
        have he : keyOf st0.key_cols (projKeys X).cols p
            = keyOf st0.key_cols st0.key_cols p := by
          show keyOf st0.key_cols X.key_cols p = _
          rw [hkdX]
        exact he ▸ List.mem_map_of_mem _ hp
      constructor
      · -- the X indicator
        have hov := hOV2 (v1 p) hqt1 X.name
        rw [if_neg (fun h => hXY h.1)] at hov
        rw [hov, (ht1yvals (v1 p) hq).1 X.name]
        have hnv := hNV1 p hp X.name
        rw [if_pos rfl] at hnv
        rw [hnv, hkeyXY, if_pos hpX]
      · -- the Y indicator
        have hov := hOV2 (v1 p) hqt1 Y.name
        by_cases hYk : keyOf st0.key_cols st0.key_cols p ∈ mergeDbK st0 Y
        · rw [if_pos ⟨rfl, show keyOf (merge_core st0 X).key_cols
              (mergeT1 (merge_core st0 X) Y).cols (v1 p)
              ∈ mergeDbK (merge_core st0 X) Y from
              ((ht1yvals (v1 p) hq).2.trans hkeyq) ▸ hYk⟩] at hov
          rw [hov, hkeyXY, if_pos hYk]
        · rw [if_neg (fun h => hYk (by
            have hh : keyOf st0.key_cols (mergeT1 (merge_core st0 X) Y).cols
                (v1 p) ∈ mergeDbK st0 Y := h.2
            rw [(ht1yvals (v1 p) hq).2, hkeyq] at hh
            exact hh))] at hov
          rw [hov, (ht1yvals (v1 p) hq).1 Y.name]
          have hnv := hNV1 p hp Y.name
          rw [if_neg (fun h => hXY h.symm), if_neg hYname] at hnv
          rw [hnv, hkeyXY, if_neg hYk]
    · -- a row appended by the second merge
      obtain ⟨p, hpf, rfl⟩ := List.mem_map.mp hr
      have hp : p ∈ (projKeys Y).rows := List.mem_of_mem_filter hpf
      have hkeyp : keyOf st0.key_cols (projKeys Y).cols p
          = keyOf st0.key_cols st0.key_cols p := by
        show keyOf st0.key_cols Y.key_cols p = _
        rw [hkdY]
      have hkeyXY : keyOf st0.key_cols
          (merge_core (merge_core st0 X) Y).table.cols (v2 p)
          = keyOf st0.key_cols st0.key_cols p := hNK2 p hp
      have hpnotX : keyOf st0.key_cols st0.key_cols p ∉ mergeDbK st0 X := by
        have hpred := (List.mem_filter.mp hpf).2
        simp only [decide_eq_true_eq] at hpred
        intro hmem
        refine hpred ?_
        rw [show keyOf (merge_core st0 X).key_cols (projKeys Y).cols p
            = keyOf st0.key_cols st0.key_cols p from hkeyp]
        rw [hTK1]
        simpa [contains_iff] using hmem
      have hpY : keyOf st0.key_cols st0.key_cols p ∈ mergeDbK st0 Y :=
        hkeyp ▸ List.mem_map_of_mem _ hp
      constructor
      · -- the X indicator
        have hnv := hNV2 p hp X.name
        rw [if_neg hXY, if_neg (show X.name ∉ (merge_core st0 X).key_cols
          from hXname)] at hnv
        rw [hnv, hkeyXY, if_neg hpnotX]
      · -- the Y indicator
        have hnv := hNV2 p hp Y.name
        rw [if_pos rfl] at hnv
        rw [hnv, hkeyXY, if_pos hpY]

/-- C3: for two registered variant-contributing sources `A` and `B`
with identity annotation steps, merging `A` then `B` into an empty
table yields the same set of keys as merging `B` then `A`, and rows
with equal key tuples carry the same final value in each of the two
presence-indicator columns; only column order and which merge first
introduces a column may differ. -/
theorem merge_order_commutes (st0 : ExtendedTable) (A B : Db)
    (stAB stBA : ExtendedTable)
    (hrunAB : mergeSeq st0 [A, B] = Except.ok stAB)
    (hrunBA : mergeSeq st0 [B, A] = Except.ok stBA)
    (h0 : st0.table.rows = [])
    (hAname : A.name ∉ st0.key_cols) (hBname : B.name ∉ st0.key_cols)
    (hABne : A.name ≠ B.name)
    (hkdA : A.key_cols = st0.key_cols) (hkdB : B.key_cols = st0.key_cols)
    (hA0 : A.name ∈ (create_basic_table st0).cols)
    (hB0 : B.name ∈ (create_basic_table st0).cols)
    (hidA : ∀ f, runAnns st0.ann_funcs A f = f)
    (hidB : ∀ f, runAnns st0.ann_funcs B f = f) :
    (∀ k, k ∈ frameKeys st0.key_cols stAB.table
        ↔ k ∈ frameKeys st0.key_cols stBA.table)
    ∧ ∀ r ∈ stAB.table.rows, ∀ s ∈ stBA.table.rows,
        keyOf st0.key_cols stAB.table.cols r
          = keyOf st0.key_cols stBA.table.cols s →
        rowGet stAB.table.cols r A.name = rowGet stBA.table.cols s A.name
        ∧ rowGet stAB.table.cols r B.name = rowGet stBA.table.cols s B.name := by
  obtain ⟨hmemAB, hvalAB⟩ := two_merge_char st0 A B stAB hrunAB h0 hAname
    hBname hABne hkdA hkdB hA0 hB0 hidA hidB
  obtain ⟨hmemBA, hvalBA⟩ := two_merge_char st0 B A stBA hrunBA h0 hBname
    hAname hABne.symm hkdB hkdA hB0 hA0 hidB hidA
  constructor
  · intro k
    rw [hmemAB k, hmemBA k]
    exact or_comm
  · intro r hr s hs hkey
    obtain ⟨hrA, hrB⟩ := hvalAB r hr
    obtain ⟨hsB, hsA⟩ := hvalBA s hs
    rw [hrA, hrB, hsA, hsB, hkey]
    exact ⟨rfl, rfl⟩

/-- Witness for C3: merging `X` then `Y` versus `Y` then `X` in the
registered two-source scenario agrees on keys and indicator values. -/
theorem merge_order_commutes_witness :
    (∀ k, k ∈ frameKeys exSt0.key_cols exStAB.table
        ↔ k ∈ frameKeys exSt0.key_cols exStBA.table)
    ∧ ∀ r ∈ exStAB.table.rows, ∀ s ∈ exStBA.table.rows,
        keyOf exSt0.key_cols exStAB.table.cols r
          = keyOf exSt0.key_cols exStBA.table.cols s →
        rowGet exStAB.table.cols r exDbX.name
          = rowGet exStBA.table.cols s exDbX.name
        ∧ rowGet exStAB.table.cols r exDbY.name
          = rowGet exStBA.table.cols s exDbY.name :=
  merge_order_commutes exSt0 exDbX exDbY exStAB exStBA rfl rfl rfl
    (by decide) (by decide) (by decide) rfl rfl (by decide) (by decide)
    (fun f => rfl) (fun f => rfl)

/-- Witness for the amended C1: one merge of a duplicate-free batch
from the empty table keeps the key tuples duplicate-free. -/
theorem mergeSeq_unique_keys_witness :
    (frameKeys exStX.key_cols exStX1.table).Nodup :=
  mergeSeq_unique_keys exStX [exDbX] exStX1 rfl rfl
    (fun db hdb => by
      rcases List.mem_singleton.mp hdb with rfl
      exact ⟨by decide, rfl, by decide,
        fun n hn => absurd hn (List.not_mem_nil n)⟩)

end ASD
